import Mathlib

/-!
The command parser and the executor of seashell.

A shallow embedding of `src/seashell.c`: `parse_command` (with the `strtok`
state it drives), `path_finder`, the dispatch / fork part of `process_command`
with the blocks of `highlight` and `kdiff`, and `ai_move`, followed by the
properties proved about them.

Conventions of the embedding.
* A C string is the list of its characters before the terminating NUL.
* A call whose behaviour the C standard leaves undefined returns a `Fault`.
* `parse_command` updates the struct it is handed; fields it does not write
  keep the value they had. The struct of a piped stage comes from `malloc`
  and is not cleared by the source, so its prior contents are a parameter
  (`heap`).
-/

namespace Seashell

/-- Characters of a C string, terminating NUL excluded. -/
abbrev Str := List Char

/-- Ways in which the C code leaves defined behaviour (plus the fuel bound of the model). -/
inductive Fault where
  /-- A call `strlen(NULL)`: line 118, when `strtok` found no token; a call `strdup(NULL)`:
  line 1119, when `PATH` is not set. -/
  | null_deref
  /-- A call `strcpy(temp_buf, pch)` with a token of 1024 characters or more: line 136. -/
  | buffer_overflow
  /-- A read of `pch[index]` beyond the terminator of the line: line 158. -/
  | out_of_string
  /-- The model ran out of fuel; `parse_command` never returns it (`parse_command_fuel`). -/
  | out_of_fuel
  deriving DecidableEq, Repr

/-- Value of `SUCCESS` in `enum return_codes`. -/
def SUCCESS : Int := 0
/-- Value of `EXIT` in `enum return_codes`. -/
def EXIT : Int := 1
/-- Value of `UNKNOWN` in `enum return_codes`. -/
def UNKNOWN : Int := 2

/-- The record `struct command_t`; `r0 r1 r2` are `redirects[0..2]` (input, truncating
output, appending output), `next` is the pointer to the piped stage (`none` for NULL). -/
inductive command_t where
  | mk (name : Str) (background : Bool) (auto_complete : Bool) (arg_count : Int)
      (args : List Str) (r0 r1 r2 : Option Str) (next : Option command_t)

namespace command_t

/-- Field `name`. -/
def name : command_t → Str
  | mk n _ _ _ _ _ _ _ _ => n
/-- Field `background`. -/
def background : command_t → Bool
  | mk _ b _ _ _ _ _ _ _ => b
/-- Field `auto_complete`. -/
def auto_complete : command_t → Bool
  | mk _ _ a _ _ _ _ _ _ => a
/-- Field `arg_count`. -/
def arg_count : command_t → Int
  | mk _ _ _ k _ _ _ _ _ => k
/-- Field `args`. -/
def args : command_t → List Str
  | mk _ _ _ _ as _ _ _ _ => as
/-- Element `redirects[i]`, `none` for a NULL pointer. -/
def redirects : command_t → Nat → Option Str
  | mk _ _ _ _ _ r0 r1 r2 _, i =>
    if i = 0 then r0 else if i = 1 then r1 else if i = 2 then r2 else none
/-- Field `next`. -/
def next : command_t → Option command_t
  | mk _ _ _ _ _ _ _ _ nx => nx

/-- Assignment `command->name = v`. -/
def set_name : command_t → Str → command_t
  | mk _ b a k as r0 r1 r2 nx, v => mk v b a k as r0 r1 r2 nx
/-- Assignment `command->background = v`. -/
def set_background : command_t → Bool → command_t
  | mk n _ a k as r0 r1 r2 nx, v => mk n v a k as r0 r1 r2 nx
/-- Assignment `command->auto_complete = v`. -/
def set_auto_complete : command_t → Bool → command_t
  | mk n b _ k as r0 r1 r2 nx, v => mk n b v k as r0 r1 r2 nx
/-- Assignment `command->arg_count = v`. -/
def set_arg_count : command_t → Int → command_t
  | mk n b a _ as r0 r1 r2 nx, v => mk n b a v as r0 r1 r2 nx
/-- Assignment `command->args = v`. -/
def set_args : command_t → List Str → command_t
  | mk n b a k _ r0 r1 r2 nx, v => mk n b a k v r0 r1 r2 nx
/-- Assignment `command->redirects[i] = v`, for `i` among 0, 1, 2. -/
def set_redirect : command_t → Int → Str → command_t
  | mk n b a k as r0 r1 r2 nx, i, v =>
    if i = 0 then mk n b a k as (some v) r1 r2 nx
    else if i = 1 then mk n b a k as r0 (some v) r2 nx
    else if i = 2 then mk n b a k as r0 r1 (some v) nx
    else mk n b a k as r0 r1 r2 nx
/-- Assignment `command->next = v`. -/
def set_next : command_t → command_t → command_t
  | mk n b a k as r0 r1 r2 _, v => mk n b a k as r0 r1 r2 (some v)

/-- The stages reachable from a command through `next`, the command itself first. -/
def chain : command_t → List command_t
  | mk n b a k as r0 r1 r2 none => [mk n b a k as r0 r1 r2 none]
  | mk n b a k as r0 r1 r2 (some c) => mk n b a k as r0 r1 r2 (some c) :: chain c

end command_t

/-- The struct after `memset(command, 0, sizeof(struct command_t))` in `main`; the NULL
`name` is written as the empty string, `parse_command` assigns it before any read. -/
def zeroed : command_t := .mk [] false false 0 [] none none none none

/-- Test `strchr(splitters, c) != NULL` for a character `c` of the string, with
`splitters = " \t"`. -/
def is_splitter (c : Char) : Bool := c == ' ' || c == '\t'

/-- Size of `temp_buf` in `parse_command`. -/
def TEMP_BUF_SIZE : Nat := 1024

/-- What one call of `strtok` hands back: the token, whether a delimiter behind it was
overwritten with NUL (`false`: the token ran up to the terminator of the string), and the
text at the pointer `strtok` saves for the next call. -/
structure Tok where
  tok : Str
  delimited : Bool
  rest : Str

/-- The library function `strtok(s, " \t")` on the text at `s`, and `strtok(NULL, " \t")` on
the text at the saved pointer: skip delimiters, cut the token at the next delimiter. `none`
is the NULL result. -/
def strtok (s : Str) : Option Tok :=
  match s.dropWhile is_splitter with
  | [] => none
  | c :: cs =>
    match (c :: cs).dropWhile (fun x => !is_splitter x) with
    | [] => some ⟨(c :: cs).takeWhile (fun x => !is_splitter x), false, []⟩
    | _ :: rest => some ⟨(c :: cs).takeWhile (fun x => !is_splitter x), true, rest⟩

/-- Lines 171-185: the index of the `redirects` slot a token selects, -1 for none. -/
def redirect_index (arg : Str) : Int :=
  let r : Int := if arg.head? = some '<' then 0 else -1
  if arg.head? = some '>' then
    (if 1 < arg.length ∧ arg.get? 1 = some '>' then 2 else 1)
  else r

/-- Lines 177-182: the token after the `arg++` done for `>>`. -/
def redirect_arg (arg : Str) : Str :=
  if arg.head? = some '>' ∧ 1 < arg.length ∧ arg.get? 1 = some '>' then arg.tail else arg

/-- Line 194: the test for a quote wrapped argument. -/
def quote_wrapped (arg : Str) : Bool :=
  decide (2 < arg.length) &&
    ((arg.head? == some '"' && arg.getLast? == some '"') ||
     (arg.head? == some '\'' && arg.getLast? == some '\''))

/-- Lines 194-198: a quote wrapped argument loses its first and last character. -/
def strip_quotes (arg : Str) : Str :=
  if quote_wrapped arg then arg.tail.dropLast else arg

mutual

/-- The function `parse_command(buf, command)`, lines 99-205, with the state of `strtok`
made explicit. `slack` counts the NUL bytes known to follow the terminator of the line
(written by the right trim), `heap d` is the prior content of the struct that the call at
nesting depth `d` obtains from `malloc`. The result is the updated struct and the text at
the pointer `strtok` has saved when the call returns. -/
def parse_command_aux (heap : Nat → command_t) :
    Nat → Nat → Nat → Str → command_t → Except Fault (command_t × Str)
  | 0, _, _, _, _ => .error .out_of_fuel
  | fuel + 1, depth, slack, buf, command =>
    -- trim left whitespace, trim right whitespace
    let buf1 := buf.dropWhile is_splitter
    let buf2 := buf1.rdropWhile is_splitter
    let slack2 := slack + (buf1.length - buf2.length)
    let command := if buf2.getLast? = some '?' then command.set_auto_complete true else command
    let command := if buf2.getLast? = some '&' then command.set_background true else command
    match strtok buf2 with
    | none => .error .null_deref
    | some t =>
      parse_loop heap fuel depth slack2 t.rest ((command.set_name t.tok).set_args []) 0

/-- The `while (1)` loop of `parse_command`, lines 129-202, and the assignment of
`arg_count` behind it; `st` is the text at the pointer saved by `strtok`. -/
def parse_loop (heap : Nat → command_t) :
    Nat → Nat → Nat → Str → command_t → Int → Except Fault (command_t × Str)
  | 0, _, _, _, _, _ => .error .out_of_fuel
  | fuel + 1, depth, slack, st, command, arg_index =>
    match strtok st with
    | none => .ok (command.set_arg_count arg_index, [])
    | some t =>
      if TEMP_BUF_SIZE ≤ t.tok.length then .error .buffer_overflow
      else if t.tok.length = 0 then parse_loop heap fuel depth slack t.rest command arg_index
      else
        let arg := (t.tok.dropWhile is_splitter).rdropWhile is_splitter
        if arg.length = 0 then parse_loop heap fuel depth slack t.rest command arg_index
        else if arg = ['|'] then
          -- pch[l] = splitters[0]; skip whitespaces; parse_command(pch + index, c)
          if t.delimited then
            match parse_command_aux heap fuel (depth + 1) slack
                (t.rest.dropWhile is_splitter) (heap depth) with
            | .error e => .error e
            | .ok (c, st2) => parse_loop heap fuel depth slack st2 (command.set_next c) arg_index
          else if slack = 0 then .error .out_of_string
          else
            match parse_command_aux heap fuel (depth + 1) (slack - 1) [] (heap depth) with
            | .error e => .error e
            | .ok (c, st2) => parse_loop heap fuel depth slack st2 (command.set_next c) arg_index
        else if arg = ['&'] then parse_loop heap fuel depth slack t.rest command arg_index
        else if redirect_index arg ≠ -1 then
          parse_loop heap fuel depth slack t.rest
            (command.set_redirect (redirect_index arg) (redirect_arg arg).tail) arg_index
        else
          parse_loop heap fuel depth slack t.rest
            (command.set_args (command.args ++ [strip_quotes arg])) (arg_index + 1)

end

/-- The call `parse_command(buf, command)` on a line `buf`. -/
def parse_command (heap : Nat → command_t) (buf : Str) (command : command_t) :
    Except Fault command_t :=
  match parse_command_aux heap (2 * buf.length + 2) 0 0 buf command with
  | .error e => .error e
  | .ok (c, _) => .ok c

/-! ## Path search and the executor -/

/-- Value of `PATH_MAX` (`<limits.h>` on Linux), the size of `command_path`. -/
def PATH_MAX : Nat := 4096

/-- What the operating system answers to the process that runs `process_command`. -/
structure OS where
  /-- Value `fork()` returns in the process described: 0 in the child, the pid of the child
  in the shell, -1 when no child could be created. -/
  fork_ret : Int
  /-- Value of `getenv("PATH")`, `none` for NULL. -/
  PATH : Option Str
  /-- Test `access(path, X_OK | F_OK) != -1`. -/
  access : Str → Bool
  /-- Whether `execv(path, argv)` replaces the process image (it returns otherwise). -/
  execv_ok : Str → Bool
  /-- Exit status of the child that `wait` reaps. -/
  child_status : Int
  /-- Content of the uninitialised buffer `command_path`. -/
  command_path : Str

/-- System calls recorded for the process that runs `process_command`. -/
inductive Call where
  /-- A call `fork()` and the value it returned. -/
  | fork (ret : Int)
  /-- A call `wait(stat_loc)` and the status it stored through `stat_loc` (`none`: nothing
  stored). -/
  | wait (stored : Option Int)
  /-- A call `chdir(path)`. -/
  | chdir (path : Str)
  /-- A call `execv(path, argv)`. -/
  | execv (path : Str) (argv : List (Option Str))
  /-- A call `exit(status)`. -/
  | exit (status : Int)
  deriving DecidableEq

/-- Behaviour of one run of `process_command` in one process: the calls made in order, and
the value returned (`none`: the process did not return from the function, it was replaced by
`execv` or it exited). -/
structure Outcome where
  calls : List Call
  result : Option Int
  deriving DecidableEq

/-- What `wait(stat_loc)` stores: the status of the child when `stat_loc` is not NULL,
nothing when it is NULL. -/
def wait_stored (os : OS) (stat_loc_null : Bool) : Option Int :=
  if stat_loc_null then none else some os.child_status

/-- The items `strsep(&allPaths, ":")` returns one after the other: the fields between the
colons, empty ones included. -/
def strsep_fields (allPaths : Str) : List Str := allPaths.splitOn ':'

/-- The call `snprintf(path, size, "%s/%s", item, name)`: at most `size - 1` characters are
written, nothing when `size` is 0. -/
def snprintf_path (size : Nat) (path item name : Str) : Str :=
  if size = 0 then path else (item ++ '/' :: name).take (size - 1)

/-- The `while` loop of `path_finder`, lines 1123-1130, over the items still to come; the
result is the content of the buffer `path` when the loop ends. -/
def path_finder_loop (access : Str → Bool) (name : Str) (size : Nat) : List Str → Str → Str
  | [], path => path
  | item :: items, path =>
    if access (snprintf_path size path item name) then snprintf_path size path item name
    else path_finder_loop access name size items (snprintf_path size path item name)

/-- The function `path_finder(name, path, size)`, lines 1117-1132: the content of the buffer
`path` after the call. -/
def path_finder (os : OS) (name : Str) (path : Str) (size : Nat) : Except Fault Str :=
  match os.PATH with
  | none => .error .null_deref
  | some allPaths =>
    .ok (path_finder_loop os.access name size (strsep_fields allPaths) path)

/-- Lines 1090-1091: `for (i = arg_count - 2; i > 0; --i) args[i] = args[i - 1]`, started
at `i`. -/
def shift_args : Nat → List (Option Str) → List (Option Str)
  | 0, args => args
  | i + 1, args => shift_args i (args.set (i + 1) (args.getD i none))

/-- Lines 1086-1096: the argument vector built for `execv`, two slots longer than `args`;
the slots added by `realloc` are written before they are read. -/
def exec_argv (command : command_t) : List (Option Str) :=
  let arg_count := command.arg_count + 2
  let args := command.args.map some ++ [none, none]
  let args := shift_args (arg_count - 2).toNat args
  let args := args.set 0 (some command.name)
  args.set (arg_count - 1).toNat none

/-- Lines 1074-1108 of `process_command`: `fork`, then in the child the argument vector, the
path search and `execv` (followed by `exit(0)` when `execv` returns), in the parent the
`wait(0)` of a foreground command and `return SUCCESS`. -/
def fork_exec (os : OS) (command : command_t) : Except Fault Outcome :=
  if os.fork_ret = 0 then
    match path_finder os command.name os.command_path PATH_MAX with
    | .error e => .error e
    | .ok command_path =>
      if os.execv_ok command_path then
        .ok ⟨[.fork 0, .execv command_path (exec_argv command)], none⟩
      else .ok ⟨[.fork 0, .execv command_path (exec_argv command), .exit 0], none⟩
  else if !command.background then
    .ok ⟨[.fork os.fork_ret, .wait (wait_stored os true)], some SUCCESS⟩
  else .ok ⟨[.fork os.fork_ret], some SUCCESS⟩

/-- Names compared in lines 374-849; their blocks are the parameter `builtin` of
`process_command`. -/
def builtin_names : List Str :=
  ["shortdir".toList, "highlight".toList, "goodMorning".toList, "kdiff".toList,
    "iambored".toList]

/-- What the block of a builtin of lines 374-1072 does: it returns from `process_command`,
or control leaves the block with the command it has changed and reaches line 1074. -/
inductive Block where
  | returned (o : Outcome)
  | fell_through (calls : List Call) (command : command_t)

/-- The function `process_command(command)`, lines 349-1114; the blocks of the builtins of
lines 374-1072 are the parameter `builtin`. -/
def process_command (os : OS) (builtin : command_t → Block) (command : command_t) :
    Except Fault Outcome :=
  if command.name = [] then .ok ⟨[], some SUCCESS⟩
  else if command.name = "exit".toList then .ok ⟨[], some EXIT⟩
  else if command.name = "cd".toList ∧ 0 < command.arg_count then
    .ok ⟨[.chdir (command.args.headD [])], some SUCCESS⟩
  else if command.name ∈ builtin_names then
    match builtin command with
    | .returned o => .ok o
    | .fell_through calls command2 =>
      match fork_exec os command2 with
      | .error e => .error e
      | .ok o => .ok ⟨calls ++ o.calls, o.result⟩
  else fork_exec os command

/-- A command that `process_command` hands to `fork` and `execv`: its name matches none of
the comparisons of lines 352-849. -/
def external (command : command_t) : Prop :=
  command.name ≠ [] ∧ command.name ≠ "exit".toList ∧
    ¬ (command.name = "cd".toList ∧ 0 < command.arg_count) ∧ command.name ∉ builtin_names

instance (command : command_t) : Decidable (external command) := by
  unfold external; infer_instance

/-- Number of children a run has started: the calls of `fork` that returned a pid. -/
def children_started (o : Outcome) : Nat :=
  (o.calls.filter (fun c =>
    match c with
    | .fork ret => decide (0 < ret)
    | _ => false)).length

/-! ## Token level reading of the parser

The definitions below are not taken from the source: they describe a line by its
whitespace-delimited tokens and say what `parse_command` is expected to build from them.
The refinement theorems relate them to `parse_command`. -/

/-- The whitespace-delimited tokens of a line: the non-empty pieces between blanks and
tabs. -/
def words (s : Str) : List Str := (s.splitOnP is_splitter).filter (fun w => !w.isEmpty)

/-- Last character of the last token of a list of tokens. -/
def last_char (toks : List Str) : Option Char := toks.getLast?.bind List.getLast?

/-- Lines 112-124 on the tokens `toks` of the buffer: the two marker flags, the name and the
fresh argument array. -/
def stage_init (toks : List Str) (command : command_t) : command_t :=
  let c1 := if last_char toks = some '?' then command.set_auto_complete true else command
  let c2 := if last_char toks = some '&' then c1.set_background true else c1
  (c2.set_name (toks.headD [])).set_args []

/-- The loop of lines 129-203 on the tokens that follow the name: a `|` hands every later
token to the next stage, `&` is skipped, a token that starts with `<` or `>` fills a redirect
slot, every other token is appended to `args` after quote stripping. -/
def stage_loop (heap : Nat → command_t) : Nat → List Str → command_t → Int → command_t
  | _, [], c, k => c.set_arg_count k
  | d, t :: ts, c, k =>
    if t = ['|'] then
      match ts with
      | [] => c.set_arg_count k
      | n :: ts2 =>
        (c.set_next (stage_loop heap (d + 1) ts2 (stage_init (n :: ts2) (heap d)) 0)).set_arg_count k
    else if t = ['&'] then stage_loop heap d ts c k
    else if redirect_index t ≠ -1 then
      stage_loop heap d ts (c.set_redirect (redirect_index t) (redirect_arg t).tail) k
    else stage_loop heap d ts (c.set_args (c.args ++ [strip_quotes t])) (k + 1)

/-- The tokens behind a name that the loop gets through without a fault: each one copied to
`temp_buf` fits it, and a `|` is followed by the name of the next stage. -/
def loop_ok : List Str → Prop
  | [] => True
  | t :: ts =>
    t.length < TEMP_BUF_SIZE ∧
      (if t = ['|'] then
        match ts with
        | [] => False
        | _ :: ts2 => loop_ok ts2
      else loop_ok ts)

/-- The tokens of the head stage that become positional arguments: those before the first
`|` that are neither `&` nor a redirect. -/
def arg_tokens (ts : List Str) : List Str :=
  (ts.takeWhile (fun t => decide (t ≠ ['|']))).filter
    (fun t => decide (t ≠ ['&']) && decide (redirect_index t = -1))

/-- The names of the stages behind the head: the token after each `|` that is read as a
pipe. -/
def later_names : List Str → List Str
  | [] => []
  | [_] => []
  | t :: n :: ts2 => if t = ['|'] then n :: later_names ts2 else later_names (n :: ts2)

/-- The tokens of a pipeline given stage by stage, each stage a command word with its
arguments, a `|` token between two stages. -/
def pipeline_tokens : List (Str × List Str) → List Str
  | [] => []
  | [s] => s.1 :: s.2
  | s :: s2 :: rest => s.1 :: (s.2 ++ ['|'] :: pipeline_tokens (s2 :: rest))

/-- A result of the parser model that is not the fuel bound, and that leaves the saved
pointer of `strtok` at the end of the line when it is a success. -/
def settled (r : Except Fault (command_t × Str)) : Prop :=
  r ≠ .error .out_of_fuel ∧ ∀ c st2, r = .ok (c, st2) → st2 = []

/-! ## The tic-tac-toe move of `iambored` -/

/-- The array `char arr[3][3]` of the game: `arr i j` is `arr[i][j]`. -/
abbrev Board := Fin 3 → Fin 3 → Char

/-- Assignment `arr[i][j] = v`. -/
def Board.set (arr : Board) (i j : Fin 3) (v : Char) : Board :=
  fun a b => if a = i ∧ b = j then v else arr a b

/-- The function `ai_move(arr)`, lines 1303-1410: the value returned and the array after the
call; `c = 'X'`, `b = ' '`, `o = 'O'`. -/
def ai_move (arr : Board) : Bool × Board :=
  if arr 0 0 = 'X' ∧ arr 0 1 = 'X' ∧ arr 0 2 = ' ' then (false, arr.set 0 2 'O')
  else if arr 0 1 = 'X' ∧ arr 0 2 = 'X' ∧ arr 0 0 = ' ' then (false, arr.set 0 0 'O')
  else if arr 1 0 = 'X' ∧ arr 1 1 = 'X' ∧ arr 1 2 = ' ' then (false, arr.set 1 2 'O')
  else if arr 1 1 = 'X' ∧ arr 1 2 = 'X' ∧ arr 1 0 = ' ' then (false, arr.set 1 0 'O')
  else if arr 2 0 = 'X' ∧ arr 2 1 = 'X' ∧ arr 2 2 = ' ' then (false, arr.set 2 2 'O')
  else if arr 2 1 = 'X' ∧ arr 2 2 = 'X' ∧ arr 2 0 = ' ' then (false, arr.set 2 0 'O')
  else if arr 0 0 = 'X' ∧ arr 1 0 = 'X' ∧ arr 2 0 = ' ' then (false, arr.set 2 0 'O')
  else if arr 1 0 = 'X' ∧ arr 2 0 = 'X' ∧ arr 0 0 = ' ' then (false, arr.set 0 0 'O')
  else if arr 0 1 = 'X' ∧ arr 1 1 = 'X' ∧ arr 2 1 = ' ' then (false, arr.set 2 1 'O')
  else if arr 1 1 = 'X' ∧ arr 2 1 = 'X' ∧ arr 0 1 = ' ' then (false, arr.set 0 1 'O')
  else if arr 0 2 = 'X' ∧ arr 1 2 = 'X' ∧ arr 2 2 = ' ' then (false, arr.set 2 2 'O')
  else if arr 1 2 = 'X' ∧ arr 2 2 = 'X' ∧ arr 0 2 = ' ' then (false, arr.set 0 2 'O')
  else if arr 0 0 = 'X' ∧ arr 0 2 = 'X' ∧ arr 0 1 = ' ' then (false, arr.set 0 1 'O')
  else if arr 1 0 = 'X' ∧ arr 1 2 = 'X' ∧ arr 1 1 = ' ' then (false, arr.set 1 1 'O')
  else if arr 2 0 = 'X' ∧ arr 2 2 = 'X' ∧ arr 2 1 = ' ' then (false, arr.set 2 1 'O')
  else if arr 0 0 = 'X' ∧ arr 2 0 = 'X' ∧ arr 1 0 = ' ' then (false, arr.set 1 0 'O')
  else if arr 0 1 = 'X' ∧ arr 2 1 = 'X' ∧ arr 1 1 = ' ' then (false, arr.set 1 1 'O')
  else if arr 0 2 = 'X' ∧ arr 2 2 = 'X' ∧ arr 1 2 = ' ' then (false, arr.set 1 2 'O')
  else if arr 0 0 = 'X' ∧ arr 1 1 = 'X' ∧ arr 2 2 = ' ' then (false, arr.set 2 2 'O')
  else if arr 1 1 = 'X' ∧ arr 2 2 = 'X' ∧ arr 0 0 = ' ' then (false, arr.set 0 0 'O')
  else if arr 0 0 = 'X' ∧ arr 2 2 = 'X' ∧ arr 1 1 = ' ' then (false, arr.set 1 1 'O')
  else if arr 2 0 = 'X' ∧ arr 1 1 = 'X' ∧ arr 0 2 = ' ' then (false, arr.set 0 2 'O')
  else if arr 1 1 = 'X' ∧ arr 0 2 = 'X' ∧ arr 2 0 = ' ' then (false, arr.set 2 0 'O')
  else if arr 2 0 = 'X' ∧ arr 0 2 = 'X' ∧ arr 1 1 = ' ' then (false, arr.set 1 1 'O')
  else (true, arr)

/-- The eight lines of the board, each by its three cells: rows, columns, diagonals. -/
def board_lines : List ((Fin 3 × Fin 3) × (Fin 3 × Fin 3) × (Fin 3 × Fin 3)) :=
  [((0, 0), (0, 1), (0, 2)), ((1, 0), (1, 1), (1, 2)), ((2, 0), (2, 1), (2, 2)),
   ((0, 0), (1, 0), (2, 0)), ((0, 1), (1, 1), (2, 1)), ((0, 2), (1, 2), (2, 2)),
   ((0, 0), (1, 1), (2, 2)), ((2, 0), (1, 1), (0, 2))]

/-- Cell `r` is the third cell of line `l`, it is blank, and the two other cells of `l` hold
`'X'`. -/
def open_third (arr : Board) (l : (Fin 3 × Fin 3) × (Fin 3 × Fin 3) × (Fin 3 × Fin 3))
    (r : Fin 3 × Fin 3) : Prop :=
  arr r.1 r.2 = ' ' ∧
    ((r = l.1 ∧ arr l.2.1.1 l.2.1.2 = 'X' ∧ arr l.2.2.1 l.2.2.2 = 'X') ∨
     (r = l.2.1 ∧ arr l.1.1 l.1.2 = 'X' ∧ arr l.2.2.1 l.2.2.2 = 'X') ∨
     (r = l.2.2 ∧ arr l.1.1 l.1.2 = 'X' ∧ arr l.2.1.1 l.2.1.2 = 'X'))

instance (arr : Board) (l : (Fin 3 × Fin 3) × (Fin 3 × Fin 3) × (Fin 3 × Fin 3))
    (r : Fin 3 × Fin 3) : Decidable (open_third arr l r) := by
  unfold open_third; infer_instance

/-! ## Further definitions for the executor and the parser -/

/-- Line 1087: the value of `arg_count` after `command->arg_count += 2`. -/
def exec_arg_count (command : command_t) : Int := command.arg_count + 2

/-- The tokens of the head stage that select the slot `redirects[i]`: those before the first
`|` for which lines 172-185 compute the index `i`. -/
def redirect_tokens (i : Int) (ts : List Str) : List Str :=
  (ts.takeWhile (fun t => decide (t ≠ ['|']))).filter (fun t => decide (redirect_index t = i))

/-- What lines 188-189 store for a redirect token: the text behind its operator. -/
def redirect_target (t : Str) : Str := (redirect_arg t).tail

/-- For each stage behind the head, the tokens that follow its name (up to the end of the
line). -/
def later_tails : List Str → List (List Str)
  | [] => []
  | [_] => []
  | t :: n :: ts2 => if t = ['|'] then ts2 :: later_tails ts2 else later_tails (n :: ts2)

/-- For each stage of a line, the head first, the tokens that follow its name. -/
def stage_tails (toks : List Str) : List (List Str) := toks.tail :: later_tails toks.tail

/-- Lines 557-632, the block of `highlight`; the vector of lines 561-571 is the one of lines
1086-1096. `fopen path` tells whether `fopen(path, "r")` returns a stream. The block returns
`EXIT` when the file `command->args[3]` cannot be opened and `SUCCESS` after printing
otherwise. `none`: one of `args[1]`, `args[2]`, `args[3]` is NULL or lies behind the vector,
the reads of the block are not defined. -/
def highlight_block (fopen : Str → Bool) (command : command_t) : Option Outcome :=
  match (exec_argv command).get? 1, (exec_argv command).get? 2, (exec_argv command).get? 3 with
  | some (some _), some (some _), some (some file_path) =>
    if fopen file_path then some ⟨[], some SUCCESS⟩ else some ⟨[], some EXIT⟩
  | _, _, _ => none

/-- Lines 721-725: the text at `&path[len - 4]`, for a path of four characters or more. -/
def last_four (path : Str) : Str := path.drop (path.length - 4)

/-- Lines 683-846, the block of `kdiff`: `UNKNOWN` when one of the two files cannot be
opened, `EXIT` when one of the two names does not end in `.txt`, `SUCCESS` after the
comparison otherwise. `none`: an argument is missing or a name is shorter than four
characters, the reads of the block are not defined. -/
def kdiff_block (fopen : Str → Bool) (command : command_t) : Option Outcome :=
  match (exec_argv command).get? 1, (exec_argv command).get? 2, (exec_argv command).get? 3 with
  | some (some _), some (some first_file_path), some (some second_file_path) =>
    if !fopen first_file_path && !fopen second_file_path then some ⟨[], some UNKNOWN⟩
    else if !fopen first_file_path then some ⟨[], some UNKNOWN⟩
    else if !fopen second_file_path then some ⟨[], some UNKNOWN⟩
    else if first_file_path.length < 4 ∨ second_file_path.length < 4 then none
    else if last_four first_file_path ≠ ".txt".toList ∨
        last_four second_file_path ≠ ".txt".toList then some ⟨[], some EXIT⟩
    else some ⟨[], some SUCCESS⟩
  | _, _, _ => none

/-- The blocks of the builtins with those of `highlight` and `kdiff` taken from the source;
`other` stands for the blocks not embedded and for what happens where a block leaves defined
behaviour. -/
def embedded_builtin (fopen : Str → Bool) (other : command_t → Block)
    (command : command_t) : Block :=
  if command.name = "highlight".toList then
    match highlight_block fopen command with
    | some o => .returned o
    | none => other command
  else if command.name = "kdiff".toList then
    match kdiff_block fopen command with
    | some o => .returned o
    | none => other command
  else other command

/-- Lines 1086-1096 on a vector of pointers `args` with `arg_count` elements; the same
statements stand in the blocks of the builtins (lines 852-862 for `iambored`), so the
vector handed in may already end in NULL. -/
def exec_vector (name : Str) (arg_count : Int) (args : List (Option Str)) :
    List (Option Str) :=
  let arg_count2 := arg_count + 2
  let args := args ++ [none, none]
  let args := shift_args (arg_count2 - 2).toNat args
  let args := args.set 0 (some name)
  args.set (arg_count2 - 1).toNat none

/-- The run of `process_command` for the command `iambored` when the option read at its
menu is 4: lines 852-862 build the vector and add 2 to `arg_count`, the loop of lines
888-1072 is not entered, and since the block has no `return` control reaches lines
1074-1108, where the vector is built again from the one of the block. -/
def iambored_quit (os : OS) (command : command_t) : Except Fault Outcome :=
  if os.fork_ret = 0 then
    match path_finder os command.name os.command_path PATH_MAX with
    | .error e => .error e
    | .ok command_path =>
      if os.execv_ok command_path then
        .ok ⟨[.fork 0, .execv command_path
          (exec_vector command.name (command.arg_count + 2)
            (exec_vector command.name command.arg_count (command.args.map some)))], none⟩
      else
        .ok ⟨[.fork 0, .execv command_path
          (exec_vector command.name (command.arg_count + 2)
            (exec_vector command.name command.arg_count (command.args.map some))),
          .exit 0], none⟩
  else if !command.background then
    .ok ⟨[.fork os.fork_ret, .wait (wait_stored os true)], some SUCCESS⟩
  else .ok ⟨[.fork os.fork_ret], some SUCCESS⟩

/-! ## Field access after an assignment -/

@[simp] theorem name_set_name (c : command_t) (v : Str) : (c.set_name v).name = v := by
  cases c; rfl

@[simp] theorem background_set_name (c : command_t) (v : Str) : (c.set_name v).background = c.background := by
  cases c; rfl

@[simp] theorem auto_complete_set_name (c : command_t) (v : Str) : (c.set_name v).auto_complete = c.auto_complete := by
  cases c; rfl

@[simp] theorem arg_count_set_name (c : command_t) (v : Str) : (c.set_name v).arg_count = c.arg_count := by
  cases c; rfl

@[simp] theorem args_set_name (c : command_t) (v : Str) : (c.set_name v).args = c.args := by
  cases c; rfl

@[simp] theorem next_set_name (c : command_t) (v : Str) : (c.set_name v).next = c.next := by
  cases c; rfl

@[simp] theorem redirects_set_name (c : command_t) (v : Str) (i : Nat) :
    (c.set_name v).redirects i = c.redirects i := by
  cases c; rfl

@[simp] theorem name_set_background (c : command_t) (v : Bool) : (c.set_background v).name = c.name := by
  cases c; rfl

@[simp] theorem background_set_background (c : command_t) (v : Bool) : (c.set_background v).background = v := by
  cases c; rfl

@[simp] theorem auto_complete_set_background (c : command_t) (v : Bool) : (c.set_background v).auto_complete = c.auto_complete := by
  cases c; rfl

@[simp] theorem arg_count_set_background (c : command_t) (v : Bool) : (c.set_background v).arg_count = c.arg_count := by
  cases c; rfl

@[simp] theorem args_set_background (c : command_t) (v : Bool) : (c.set_background v).args = c.args := by
  cases c; rfl

@[simp] theorem next_set_background (c : command_t) (v : Bool) : (c.set_background v).next = c.next := by
  cases c; rfl

@[simp] theorem redirects_set_background (c : command_t) (v : Bool) (i : Nat) :
    (c.set_background v).redirects i = c.redirects i := by
  cases c; rfl

@[simp] theorem name_set_auto_complete (c : command_t) (v : Bool) : (c.set_auto_complete v).name = c.name := by
  cases c; rfl

@[simp] theorem background_set_auto_complete (c : command_t) (v : Bool) : (c.set_auto_complete v).background = c.background := by
  cases c; rfl

@[simp] theorem auto_complete_set_auto_complete (c : command_t) (v : Bool) : (c.set_auto_complete v).auto_complete = v := by
  cases c; rfl

@[simp] theorem arg_count_set_auto_complete (c : command_t) (v : Bool) : (c.set_auto_complete v).arg_count = c.arg_count := by
  cases c; rfl

@[simp] theorem args_set_auto_complete (c : command_t) (v : Bool) : (c.set_auto_complete v).args = c.args := by
  cases c; rfl

@[simp] theorem next_set_auto_complete (c : command_t) (v : Bool) : (c.set_auto_complete v).next = c.next := by
  cases c; rfl

@[simp] theorem redirects_set_auto_complete (c : command_t) (v : Bool) (i : Nat) :
    (c.set_auto_complete v).redirects i = c.redirects i := by
  cases c; rfl

@[simp] theorem name_set_arg_count (c : command_t) (v : Int) : (c.set_arg_count v).name = c.name := by
  cases c; rfl

@[simp] theorem background_set_arg_count (c : command_t) (v : Int) : (c.set_arg_count v).background = c.background := by
  cases c; rfl

@[simp] theorem auto_complete_set_arg_count (c : command_t) (v : Int) : (c.set_arg_count v).auto_complete = c.auto_complete := by
  cases c; rfl

@[simp] theorem arg_count_set_arg_count (c : command_t) (v : Int) : (c.set_arg_count v).arg_count = v := by
  cases c; rfl

@[simp] theorem args_set_arg_count (c : command_t) (v : Int) : (c.set_arg_count v).args = c.args := by
  cases c; rfl

@[simp] theorem next_set_arg_count (c : command_t) (v : Int) : (c.set_arg_count v).next = c.next := by
  cases c; rfl

@[simp] theorem redirects_set_arg_count (c : command_t) (v : Int) (i : Nat) :
    (c.set_arg_count v).redirects i = c.redirects i := by
  cases c; rfl

@[simp] theorem name_set_args (c : command_t) (v : List Str) : (c.set_args v).name = c.name := by
  cases c; rfl

@[simp] theorem background_set_args (c : command_t) (v : List Str) : (c.set_args v).background = c.background := by
  cases c; rfl

@[simp] theorem auto_complete_set_args (c : command_t) (v : List Str) : (c.set_args v).auto_complete = c.auto_complete := by
  cases c; rfl

@[simp] theorem arg_count_set_args (c : command_t) (v : List Str) : (c.set_args v).arg_count = c.arg_count := by
  cases c; rfl

@[simp] theorem args_set_args (c : command_t) (v : List Str) : (c.set_args v).args = v := by
  cases c; rfl

@[simp] theorem next_set_args (c : command_t) (v : List Str) : (c.set_args v).next = c.next := by
  cases c; rfl

@[simp] theorem redirects_set_args (c : command_t) (v : List Str) (i : Nat) :
    (c.set_args v).redirects i = c.redirects i := by
  cases c; rfl

@[simp] theorem name_set_next (c : command_t) (v : command_t) : (c.set_next v).name = c.name := by
  cases c; rfl

@[simp] theorem background_set_next (c : command_t) (v : command_t) : (c.set_next v).background = c.background := by
  cases c; rfl

@[simp] theorem auto_complete_set_next (c : command_t) (v : command_t) : (c.set_next v).auto_complete = c.auto_complete := by
  cases c; rfl

@[simp] theorem arg_count_set_next (c : command_t) (v : command_t) : (c.set_next v).arg_count = c.arg_count := by
  cases c; rfl

@[simp] theorem args_set_next (c : command_t) (v : command_t) : (c.set_next v).args = c.args := by
  cases c; rfl

@[simp] theorem next_set_next (c : command_t) (v : command_t) : (c.set_next v).next = some v := by
  cases c; rfl

@[simp] theorem redirects_set_next (c : command_t) (v : command_t) (i : Nat) :
    (c.set_next v).redirects i = c.redirects i := by
  cases c; rfl

@[simp] theorem name_set_redirect (c : command_t) (i : Int) (v : Str) :
    (c.set_redirect i v).name = c.name := by
  cases c; simp only [command_t.set_redirect]; split_ifs <;> rfl

@[simp] theorem background_set_redirect (c : command_t) (i : Int) (v : Str) :
    (c.set_redirect i v).background = c.background := by
  cases c; simp only [command_t.set_redirect]; split_ifs <;> rfl

@[simp] theorem auto_complete_set_redirect (c : command_t) (i : Int) (v : Str) :
    (c.set_redirect i v).auto_complete = c.auto_complete := by
  cases c; simp only [command_t.set_redirect]; split_ifs <;> rfl

@[simp] theorem arg_count_set_redirect (c : command_t) (i : Int) (v : Str) :
    (c.set_redirect i v).arg_count = c.arg_count := by
  cases c; simp only [command_t.set_redirect]; split_ifs <;> rfl

@[simp] theorem args_set_redirect (c : command_t) (i : Int) (v : Str) :
    (c.set_redirect i v).args = c.args := by
  cases c; simp only [command_t.set_redirect]; split_ifs <;> rfl

@[simp] theorem next_set_redirect (c : command_t) (i : Int) (v : Str) :
    (c.set_redirect i v).next = c.next := by
  cases c; simp only [command_t.set_redirect]; split_ifs <;> rfl

theorem chain_eq (c : command_t) :
    c.chain = c :: (match c.next with
      | none => []
      | some n => n.chain) := by
  cases c with
  | mk n b a k as r0 r1 r2 nx =>
    cases nx with
    | none => unfold command_t.chain command_t.next; rfl
    | some x =>
      conv_lhs => unfold command_t.chain
      rfl

theorem chain_of_next_none {c : command_t} (h : c.next = none) : c.chain = [c] := by
  rw [chain_eq, h]

theorem chain_of_next_some {c n : command_t} (h : c.next = some n) : c.chain = c :: n.chain := by
  rw [chain_eq, h]

/-! ## Tokens and `strtok` -/

theorem splitOnP_concat_pos (p : Char → Bool) (c : Char) (h : p c = true) (xs : List Char) :
    (xs ++ [c]).splitOnP p = xs.splitOnP p ++ [[]] := by
  induction xs with
  | nil => simp [List.splitOnP_cons, h, List.splitOnP_nil]
  | cons x xs ih =>
    have hne := List.splitOnP_ne_nil p xs
    rw [List.cons_append, List.splitOnP_cons, List.splitOnP_cons, ih]
    by_cases hx : p x = true
    · simp [hx]
    · simp only [hx, Bool.false_eq_true, if_false]
      cases hs : xs.splitOnP p with
      | nil => exact absurd hs hne
      | cons a as => simp [List.modifyHead]

theorem splitOnP_eq_takeWhile (p : Char → Bool) (xs : List Char) :
    xs.splitOnP p = xs.takeWhile (fun x => !p x) ::
      (match xs.dropWhile (fun x => !p x) with
       | [] => []
       | _ :: r => r.splitOnP p) := by
  induction xs with
  | nil => simp [List.splitOnP_nil]
  | cons x xs ih =>
    rw [List.splitOnP_cons]
    by_cases hx : p x = true
    · simp [hx]
    · simp only [hx, Bool.false_eq_true, if_false]
      rw [ih]
      simp [List.modifyHead, hx]

theorem words_nil : words [] = [] := by
  simp [words, List.splitOnP_nil]

theorem words_cons_pos {c : Char} (h : is_splitter c = true) (s : Str) :
    words (c :: s) = words s := by
  simp [words, List.splitOnP_cons, h]

theorem words_concat_pos {c : Char} (h : is_splitter c = true) (s : Str) :
    words (s ++ [c]) = words s := by
  simp [words, splitOnP_concat_pos _ c h]

theorem words_dropWhile (s : Str) : words (s.dropWhile is_splitter) = words s := by
  induction s with
  | nil => rfl
  | cons c s ih =>
    by_cases h : is_splitter c = true
    · rw [List.dropWhile_cons_of_pos h, ih, words_cons_pos h]
    · rw [List.dropWhile_cons_of_neg h]

theorem words_rdropWhile (s : Str) : words (s.rdropWhile is_splitter) = words s := by
  induction s using List.reverseRecOn with
  | nil => rfl
  | append_singleton s c ih =>
    by_cases h : is_splitter c = true
    · rw [List.rdropWhile_concat_pos _ _ _ h, ih, words_concat_pos h]
    · rw [List.rdropWhile_concat_neg _ _ _ h]

theorem words_cons_neg {c : Char} (h : is_splitter c = false) (cs : Str) :
    words (c :: cs) = (c :: cs).takeWhile (fun x => !is_splitter x) ::
      (match (c :: cs).dropWhile (fun x => !is_splitter x) with
       | [] => []
       | _ :: r => words r) := by
  unfold words
  rw [splitOnP_eq_takeWhile]
  rw [List.filter_cons_of_pos (by simp [h])]
  congr 1
  split <;> simp_all

theorem dropWhile_head_neg (s : Str) (c : Char) (cs : Str)
    (h : s.dropWhile is_splitter = c :: cs) : is_splitter c = false := by
  induction s with
  | nil => simp at h
  | cons x xs ih =>
    by_cases hx : is_splitter x = true
    · rw [List.dropWhile_cons_of_pos hx] at h
      exact ih h
    · rw [List.dropWhile_cons_of_neg hx] at h
      simp only [List.cons.injEq] at h
      rw [← h.1]
      simpa using hx

theorem strtok_none {s : Str} (h : strtok s = none) : words s = [] := by
  unfold strtok at h
  split at h
  · rename_i hd
    rw [← words_dropWhile, hd, words_nil]
  · split at h <;> simp at h

theorem strtok_some {s : Str} {t : Tok} (h : strtok s = some t) :
    words s = t.tok :: words t.rest ∧ (t.delimited = false → t.rest = []) := by
  unfold strtok at h
  split at h
  · simp at h
  · rename_i c cs hd
    have hc := dropWhile_head_neg s c cs hd
    rw [← words_dropWhile, hd, words_cons_neg hc]
    split at h
    · rename_i hdd
      simp only [Option.some.injEq] at h
      subst h
      simp [hdd, words_nil]
    · rename_i x r hdd
      simp only [Option.some.injEq] at h
      subst h
      simp [hdd]

theorem strtok_of_words_nil {s : Str} (h : words s = []) : strtok s = none := by
  cases hs : strtok s with
  | none => rfl
  | some t => have := (strtok_some hs).1; rw [h] at this; simp at this

theorem strtok_of_words_cons {s : Str} {w : Str} {ws : List Str} (h : words s = w :: ws) :
    ∃ t, strtok s = some t ∧ t.tok = w ∧ words t.rest = ws ∧ (ws ≠ [] → t.delimited = true) := by
  cases hs : strtok s with
  | none => have := strtok_none hs; rw [h] at this; simp at this
  | some t =>
    obtain ⟨h1, h2⟩ := strtok_some hs
    rw [h] at h1
    simp only [List.cons.injEq] at h1
    refine ⟨t, rfl, h1.1.symm, h1.2.symm, ?_⟩
    intro hne
    cases hd : t.delimited with
    | true => rfl
    | false =>
      have := h2 hd
      rw [this, words_nil] at h1
      exact absurd h1.2 hne

theorem strtok_tok {s : Str} {t : Tok} (h : strtok s = some t) :
    t.tok ≠ [] ∧ (∀ c ∈ t.tok, is_splitter c = false) ∧ t.rest.length < s.length ∧
      t.tok.length ≤ s.length := by
  unfold strtok at h
  split at h
  · simp at h
  · rename_i c cs hd
    have hc := dropWhile_head_neg s c cs hd
    have hlen : (c :: cs).length ≤ s.length := by
      rw [← hd]; exact (List.dropWhile_sublist _).length_le
    have htw : (c :: cs).takeWhile (fun x => !is_splitter x) ≠ [] := by
      rw [List.takeWhile_cons_of_pos (by simp [hc])]; simp
    have hmem : ∀ x ∈ (c :: cs).takeWhile (fun x => !is_splitter x), is_splitter x = false := by
      intro x hx
      have := List.mem_takeWhile_imp hx
      simpa using this
    have htl : ((c :: cs).takeWhile (fun x => !is_splitter x)).length ≤ s.length :=
      le_trans (List.takeWhile_sublist _).length_le hlen
    split at h
    · simp only [Option.some.injEq] at h
      subst h
      refine ⟨htw, hmem, ?_, htl⟩
      simp only [List.length_nil]
      simp only [List.length_cons] at hlen
      omega
    · rename_i x r hdd
      simp only [Option.some.injEq] at h
      subst h
      refine ⟨htw, hmem, ?_, htl⟩
      have h2 : (x :: r).length ≤ (c :: cs).length := by
        rw [← hdd]; exact (List.dropWhile_sublist _).length_le
      simp only [List.length_cons] at h2 hlen ⊢
      omega

theorem words_spec (s : Str) :
    (words s).length ≤ s.length ∧
      ∀ w ∈ words s, w ≠ [] ∧ (∀ c ∈ w, is_splitter c = false) ∧ w.length ≤ s.length := by
  generalize h : s.length = n
  induction n using Nat.strong_induction_on generalizing s with
  | _ n ih =>
    cases hs : strtok s with
    | none => rw [strtok_none hs]; simp
    | some t =>
      obtain ⟨h1, _⟩ := strtok_some hs
      obtain ⟨h3, h4, h5, h6⟩ := strtok_tok hs
      obtain ⟨i1, i2⟩ := ih t.rest.length (by omega) t.rest rfl
      rw [h1]
      refine ⟨by simp only [List.length_cons]; omega, ?_⟩
      intro w hw
      rcases List.mem_cons.1 hw with rfl | hw
      · exact ⟨h3, h4, by omega⟩
      · obtain ⟨j1, j2, j3⟩ := i2 w hw
        exact ⟨j1, j2, by omega⟩

theorem words_length_le (s : Str) : (words s).length ≤ s.length := (words_spec s).1

theorem word_ne_nil {s : Str} {w : Str} (h : w ∈ words s) : w ≠ [] := ((words_spec s).2 w h).1

theorem word_no_splitter {s : Str} {w : Str} (h : w ∈ words s) :
    ∀ c ∈ w, is_splitter c = false := ((words_spec s).2 w h).2.1

theorem word_length_le {s : Str} {w : Str} (h : w ∈ words s) : w.length ≤ s.length :=
  ((words_spec s).2 w h).2.2

theorem trim_word {w : Str} (h : ∀ c ∈ w, is_splitter c = false) :
    (w.dropWhile is_splitter).rdropWhile is_splitter = w := by
  have h1 : w.dropWhile is_splitter = w := by
    cases w with
    | nil => rfl
    | cons c cs => exact List.dropWhile_cons_of_neg (by simp [h c (List.mem_cons_self _ _)])
  rw [h1, List.rdropWhile_eq_self_iff]
  intro hl
  simp [h _ (List.getLast_mem hl)]

theorem last_char_words_concat (s : Str) (c : Char) (hc : is_splitter c = false) :
    last_char (words (s ++ [c])) = some c := by
  generalize h : s.length = n
  induction n using Nat.strong_induction_on generalizing s with
  | _ n ih =>
    cases s with
    | nil =>
      rw [List.nil_append, words_cons_neg hc]
      simp [hc, last_char]
    | cons x xs =>
      by_cases hx : is_splitter x = true
      · rw [List.cons_append, words_cons_pos hx]
        exact ih xs.length (by simp at h; omega) xs rfl
      · have hx2 : is_splitter x = false := by simpa using hx
        rw [List.cons_append, words_cons_neg hx2, ← List.cons_append, List.dropWhile_append]
        by_cases he : (List.dropWhile (fun x => !is_splitter x) (x :: xs)).isEmpty = true
        · rw [if_pos he]
          have hall : ∀ y ∈ x :: xs, is_splitter y = false := by
            have := List.isEmpty_iff.1 he
            rw [List.dropWhile_eq_nil_iff] at this
            intro y hy; simpa using this y hy
          have htw : List.takeWhile (fun x => !is_splitter x) (x :: xs ++ [c]) = x :: xs ++ [c] := by
            rw [List.takeWhile_eq_self_iff]
            intro y hy
            rcases List.mem_append.1 hy with hy | hy
            · simp [hall y hy]
            · simp at hy; simp [hy, hc]
          have hdc : List.dropWhile (fun x => !is_splitter x) [c] = [] := by simp [hc]
          rw [hdc, htw]
          show ((x :: xs) ++ [c]).getLast? = some c
          exact List.getLast?_concat _
        · rw [if_neg he]
          cases hd : List.dropWhile (fun x => !is_splitter x) (x :: xs) with
          | nil => simp [hd] at he
          | cons y r =>
            have hlen : (y :: r).length ≤ (x :: xs).length := by
              rw [← hd]; exact (List.dropWhile_sublist _).length_le
            have := ih r.length (by simp at h hlen; omega) r rfl
            simp only [List.cons_append]
            cases hw : words (r ++ [c]) with
            | nil => rw [hw] at this; simp [last_char] at this
            | cons a as =>
              rw [hw] at this
              simpa [last_char, List.getLast?_cons_cons] using this

theorem getLast_rdropWhile (s : Str) :
    (s.rdropWhile is_splitter).getLast? = last_char (words s) := by
  rw [← words_rdropWhile s]
  generalize hs : s.rdropWhile is_splitter = u
  have hu : ∀ hl : u ≠ [], ¬ is_splitter (u.getLast hl) = true := by
    intro hl
    have := List.rdropWhile_last_not is_splitter s (by rw [hs]; exact hl)
    simpa [hs] using this
  cases u using List.reverseRecOn with
  | nil => simp [words_nil, last_char]
  | append_singleton v c =>
    have hc : is_splitter c = false := by simpa using hu (by simp)
    rw [last_char_words_concat v c hc]
    simp

theorem getLast_trim (s : Str) :
    ((s.dropWhile is_splitter).rdropWhile is_splitter).getLast? = last_char (words s) := by
  rw [getLast_rdropWhile, words_dropWhile]

/-! ## The parser builds what the tokens say -/

theorem loop_ok_cons (t : Str) (ts : List Str) :
    loop_ok (t :: ts) ↔ t.length < TEMP_BUF_SIZE ∧
      (if t = ['|'] then
        match ts with
        | [] => False
        | _ :: ts2 => loop_ok ts2
      else loop_ok ts) := by
  conv_lhs => unfold loop_ok

theorem stage_loop_nil (heap : Nat → command_t) (d : Nat) (c : command_t) (k : Int) :
    stage_loop heap d [] c k = c.set_arg_count k := by
  unfold stage_loop; rfl

theorem stage_loop_pipe (heap : Nat → command_t) (d : Nat) (n : Str) (ts2 : List Str)
    (c : command_t) (k : Int) :
    stage_loop heap d (['|'] :: n :: ts2) c k =
      (c.set_next (stage_loop heap (d + 1) ts2 (stage_init (n :: ts2) (heap d)) 0)).set_arg_count k := by
  conv_lhs => unfold stage_loop
  simp

theorem stage_loop_amp (heap : Nat → command_t) (d : Nat) (ts : List Str)
    (c : command_t) (k : Int) :
    stage_loop heap d (['&'] :: ts) c k = stage_loop heap d ts c k := by
  conv_lhs => unfold stage_loop
  simp

theorem stage_loop_redirect (heap : Nat → command_t) (d : Nat) (t : Str) (ts : List Str)
    (c : command_t) (k : Int) (h1 : t ≠ ['|']) (h2 : t ≠ ['&']) (h3 : redirect_index t ≠ -1) :
    stage_loop heap d (t :: ts) c k =
      stage_loop heap d ts (c.set_redirect (redirect_index t) (redirect_arg t).tail) k := by
  conv_lhs => unfold stage_loop
  simp [h1, h2, h3]

theorem stage_loop_arg (heap : Nat → command_t) (d : Nat) (t : Str) (ts : List Str)
    (c : command_t) (k : Int) (h1 : t ≠ ['|']) (h2 : t ≠ ['&']) (h3 : redirect_index t = -1) :
    stage_loop heap d (t :: ts) c k =
      stage_loop heap d ts (c.set_args (c.args ++ [strip_quotes t])) (k + 1) := by
  conv_lhs => unfold stage_loop
  simp [h1, h2, h3]

theorem parse_refines (heap : Nat → command_t) (fuel : Nat) :
    (∀ st depth slack command k, loop_ok (words st) → 2 * (words st).length + 1 ≤ fuel →
      parse_loop heap fuel depth slack st command k
        = .ok (stage_loop heap depth (words st) command k, [])) ∧
    (∀ buf depth slack command, words buf ≠ [] → loop_ok (words buf).tail →
      2 * (words buf).length ≤ fuel →
      parse_command_aux heap fuel depth slack buf command
        = .ok (stage_loop heap depth (words buf).tail (stage_init (words buf) command) 0, [])) := by
  induction fuel with
  | zero =>
    constructor
    · intro st depth slack command k _ hf
      omega
    · intro buf depth slack command hne _ hf
      have : (words buf).length = 0 := by omega
      exact absurd (List.length_eq_zero.1 this) hne
  | succ f ih =>
    obtain ⟨ihl, ihc⟩ := ih
    constructor
    · intro st depth slack command k hok hf
      rw [parse_loop]
      cases hw : words st with
      | nil =>
        rw [strtok_of_words_nil hw]
        simp [stage_loop]
      | cons w ws =>
        obtain ⟨t, ht, htok, hrest, hdel⟩ := strtok_of_words_cons hw
        have hmem : w ∈ words st := by rw [hw]; exact List.mem_cons_self _ _
        have hne : w ≠ [] := word_ne_nil hmem
        have htrim := trim_word (word_no_splitter hmem)
        rw [hw] at hok hf
        simp only [List.length_cons] at hf
        obtain ⟨hfit, hok2⟩ := (loop_ok_cons w ws).1 hok
        have hlen0 : ¬ w.length = 0 := fun h => hne (List.length_eq_zero.1 h)
        rw [ht]
        simp only [htok, htrim, if_neg (Nat.not_le.2 hfit), if_neg hlen0]
        by_cases hpipe : w = ['|']
        · rw [if_pos hpipe] at hok2 ⊢
          cases ws with
          | nil => exact absurd hok2 (by simp)
          | cons n ts2 =>
            simp only at hok2
            have hd : t.delimited = true := hdel (by simp)
            have hwn : words (List.dropWhile is_splitter t.rest) = n :: ts2 := by
              rw [words_dropWhile, hrest]
            have hc := ihc (List.dropWhile is_splitter t.rest) (depth + 1) slack (heap depth)
              (by rw [hwn]; simp) (by rw [hwn]; exact hok2)
              (by rw [hwn]; simp only [List.length_cons] at hf ⊢; omega)
            rw [if_pos hd, hc]
            simp only
            have hl := ihl [] depth slack
              (command.set_next (stage_loop heap (depth + 1) (words (List.dropWhile is_splitter t.rest)).tail
                (stage_init (words (List.dropWhile is_splitter t.rest)) (heap depth)) 0)) k
              (by rw [words_nil]; trivial) (by rw [words_nil]; simp only [List.length_cons, List.length_nil] at hf ⊢; omega)
            rw [hl, words_nil, hwn, hpipe, stage_loop_pipe, stage_loop_nil]
            rfl
        · rw [if_neg hpipe] at hok2 ⊢
          have hrec : ∀ c k2, parse_loop heap f depth slack t.rest c k2
              = .ok (stage_loop heap depth ws c k2, []) := by
            intro c k2
            have := ihl t.rest depth slack c k2 (by rw [hrest]; exact hok2) (by rw [hrest]; omega)
            rw [this, hrest]
          by_cases hamp : w = ['&']
          · rw [if_pos hamp, hrec, hamp, stage_loop_amp]
          · rw [if_neg hamp]
            by_cases hred : redirect_index w = -1
            · simp only [hred, ne_eq, not_true_eq_false, if_false]
              rw [hrec, stage_loop_arg _ _ _ _ _ _ hpipe hamp hred]
            · rw [if_pos hred, hrec, stage_loop_redirect _ _ _ _ _ _ hpipe hamp hred]
    · intro buf depth slack command hne hok hf
      rw [parse_command_aux]
      simp only [getLast_trim]
      cases hw : words buf with
      | nil => exact absurd hw hne
      | cons w ws =>
        have hw2 : words ((buf.dropWhile is_splitter).rdropWhile is_splitter) = w :: ws := by
          rw [words_rdropWhile, words_dropWhile, hw]
        obtain ⟨t, ht, htok, hrest, _⟩ := strtok_of_words_cons hw2
        rw [hw] at hok hf
        simp only [List.tail_cons] at hok
        simp only [List.length_cons] at hf
        rw [ht]
        simp only
        have := ihl t.rest depth (slack + ((buf.dropWhile is_splitter).length -
            ((buf.dropWhile is_splitter).rdropWhile is_splitter).length))
          (((if last_char (w :: ws) = some '&' then
              (if last_char (w :: ws) = some '?' then command.set_auto_complete true
                else command).set_background true
             else (if last_char (w :: ws) = some '?' then command.set_auto_complete true
                else command)).set_name t.tok).set_args []) 0
          (by rw [hrest]; exact hok) (by rw [hrest]; omega)
        rw [this, hrest, htok]
        simp [stage_init]

theorem parse_command_eq (heap : Nat → command_t) (buf : Str) (command : command_t)
    (hne : words buf ≠ []) (hok : loop_ok (words buf).tail) :
    parse_command heap buf command
      = .ok (stage_loop heap 0 (words buf).tail (stage_init (words buf) command) 0) := by
  have hlen := words_length_le buf
  unfold parse_command
  rw [(parse_refines heap (2 * buf.length + 2)).2 buf 0 0 command hne hok (by omega)]

theorem loop_ok_of_fit (n : Nat) : ∀ ts : List Str, ts.length ≤ n →
    (∀ t ∈ ts, t.length < TEMP_BUF_SIZE) → ts.getLast? ≠ some ['|'] → loop_ok ts := by
  induction n using Nat.strong_induction_on with
  | _ n ih =>
    intro ts hn hfit hlast
    cases ts with
    | nil => unfold loop_ok; trivial
    | cons t ts =>
      rw [loop_ok_cons]
      refine ⟨hfit t (List.mem_cons_self _ _), ?_⟩
      have hfit2 : ∀ x ∈ ts, x.length < TEMP_BUF_SIZE :=
        fun x hx => hfit x (List.mem_cons_of_mem _ hx)
      simp only [List.length_cons] at hn
      by_cases hp : t = ['|']
      · rw [if_pos hp]
        cases ts with
        | nil => simp [hp] at hlast
        | cons m ts2 =>
          simp only [List.length_cons] at hn
          simp only
          cases ts2 with
          | nil => unfold loop_ok; trivial
          | cons a as =>
            refine ih (a :: as).length (by simp only [List.length_cons] at hn ⊢; omega) (a :: as) le_rfl
              (fun x hx => hfit2 x (List.mem_cons_of_mem _ hx)) ?_
            simpa [List.getLast?_cons_cons] using hlast
      · rw [if_neg hp]
        cases ts with
        | nil => unfold loop_ok; trivial
        | cons a as =>
          refine ih (a :: as).length (by simp only [List.length_cons] at hn ⊢; omega) (a :: as) le_rfl
            hfit2 ?_
          simpa [List.getLast?_cons_cons] using hlast

theorem loop_ok_tail_of_fit (ts : List Str) (hfit : ∀ t ∈ ts.tail, t.length < TEMP_BUF_SIZE)
    (hlast : last_char ts ≠ some '|') : loop_ok ts.tail := by
  cases ts with
  | nil => simp only [List.tail_nil]; unfold loop_ok; trivial
  | cons t ts =>
    simp only [List.tail_cons] at hfit ⊢
    cases ts with
    | nil => unfold loop_ok; trivial
    | cons a as =>
      refine loop_ok_of_fit _ (a :: as) le_rfl hfit ?_
      intro h
      apply hlast
      simp only [last_char, List.getLast?_cons_cons, h]
      rfl

/-! ## Invariants of the token loop -/

theorem stage_loop_pipe_end (heap : Nat → command_t) (d : Nat) (c : command_t) (k : Int) :
    stage_loop heap d [['|']] c k = c.set_arg_count k := by
  conv_lhs => unfold stage_loop
  simp

theorem stage_loop_induction (heap : Nat → command_t)
    (P : Nat → List Str → command_t → Int → command_t → Prop)
    (hnil : ∀ d c k, P d [] c k (c.set_arg_count k))
    (hend : ∀ d c k, P d [['|']] c k (c.set_arg_count k))
    (hpipe : ∀ d n ts2 c k,
      P (d + 1) ts2 (stage_init (n :: ts2) (heap d)) 0
        (stage_loop heap (d + 1) ts2 (stage_init (n :: ts2) (heap d)) 0) →
      P d (['|'] :: n :: ts2) c k
        ((c.set_next (stage_loop heap (d + 1) ts2 (stage_init (n :: ts2) (heap d)) 0)).set_arg_count k))
    (hamp : ∀ d ts c k r, P d ts c k r → P d (['&'] :: ts) c k r)
    (hred : ∀ d t ts c k r, t ≠ ['|'] → t ≠ ['&'] → redirect_index t ≠ -1 →
      P d ts (c.set_redirect (redirect_index t) (redirect_arg t).tail) k r → P d (t :: ts) c k r)
    (harg : ∀ d t ts c k r, t ≠ ['|'] → t ≠ ['&'] → redirect_index t = -1 →
      P d ts (c.set_args (c.args ++ [strip_quotes t])) (k + 1) r → P d (t :: ts) c k r) :
    ∀ ts d c k, P d ts c k (stage_loop heap d ts c k) := by
  intro ts
  generalize hn : ts.length = n
  induction n using Nat.strong_induction_on generalizing ts with
  | _ n ih =>
    intro d c k
    cases ts with
    | nil => rw [stage_loop_nil]; exact hnil d c k
    | cons t ts =>
      simp only [List.length_cons] at hn
      by_cases hp : t = ['|']
      · subst hp
        cases ts with
        | nil => rw [stage_loop_pipe_end]; exact hend d c k
        | cons m ts2 =>
          simp only [List.length_cons] at hn
          rw [stage_loop_pipe]
          exact hpipe d m ts2 c k (ih ts2.length (by omega) ts2 rfl _ _ _)
      · by_cases ha : t = ['&']
        · subst ha
          rw [stage_loop_amp]
          exact hamp d ts c k _ (ih ts.length (by omega) ts rfl _ _ _)
        · by_cases hr : redirect_index t = -1
          · rw [stage_loop_arg _ _ _ _ _ _ hp ha hr]
            exact harg d t ts c k _ hp ha hr (ih ts.length (by omega) ts rfl _ _ _)
          · rw [stage_loop_redirect _ _ _ _ _ _ hp ha hr]
            exact hred d t ts c k _ hp ha hr (ih ts.length (by omega) ts rfl _ _ _)

theorem stage_loop_name (heap : Nat → command_t) (ts : List Str) (d : Nat) (c : command_t)
    (k : Int) : (stage_loop heap d ts c k).name = c.name := by
  refine stage_loop_induction heap (fun _ _ c _ r => r.name = c.name) ?_ ?_ ?_ ?_ ?_ ?_ ts d c k
  · intro d c k; simp
  · intro d c k; simp
  · intro d n ts2 c k _; simp
  · intro d ts c k r h; exact h
  · intro d t ts c k r _ _ _ h; simpa using h
  · intro d t ts c k r _ _ _ h; simpa using h

theorem stage_loop_background (heap : Nat → command_t) (ts : List Str) (d : Nat)
    (c : command_t) (k : Int) : (stage_loop heap d ts c k).background = c.background := by
  refine stage_loop_induction heap (fun _ _ c _ r => r.background = c.background)
    ?_ ?_ ?_ ?_ ?_ ?_ ts d c k
  · intro d c k; simp
  · intro d c k; simp
  · intro d n ts2 c k _; simp
  · intro d ts c k r h; exact h
  · intro d t ts c k r _ _ _ h; simpa using h
  · intro d t ts c k r _ _ _ h; simpa using h

theorem stage_loop_auto_complete (heap : Nat → command_t) (ts : List Str) (d : Nat)
    (c : command_t) (k : Int) :
    (stage_loop heap d ts c k).auto_complete = c.auto_complete := by
  refine stage_loop_induction heap (fun _ _ c _ r => r.auto_complete = c.auto_complete)
    ?_ ?_ ?_ ?_ ?_ ?_ ts d c k
  · intro d c k; simp
  · intro d c k; simp
  · intro d n ts2 c k _; simp
  · intro d ts c k r h; exact h
  · intro d t ts c k r _ _ _ h; simpa using h
  · intro d t ts c k r _ _ _ h; simpa using h

theorem arg_tokens_nil : arg_tokens [] = [] := rfl

theorem arg_tokens_pipe (ts : List Str) : arg_tokens (['|'] :: ts) = [] := by
  simp [arg_tokens]

theorem arg_tokens_amp (ts : List Str) : arg_tokens (['&'] :: ts) = arg_tokens ts := by
  simp [arg_tokens]

theorem arg_tokens_redirect (t : Str) (ts : List Str) (h1 : t ≠ ['|'])
    (h3 : redirect_index t ≠ -1) : arg_tokens (t :: ts) = arg_tokens ts := by
  simp [arg_tokens, h1, h3]

theorem arg_tokens_arg (t : Str) (ts : List Str) (h1 : t ≠ ['|']) (h2 : t ≠ ['&'])
    (h3 : redirect_index t = -1) : arg_tokens (t :: ts) = t :: arg_tokens ts := by
  simp [arg_tokens, h1, h2, h3]

theorem stage_loop_args (heap : Nat → command_t) (ts : List Str) (d : Nat) (c : command_t)
    (k : Int) :
    (stage_loop heap d ts c k).args = c.args ++ (arg_tokens ts).map strip_quotes ∧
    (stage_loop heap d ts c k).arg_count = k + (arg_tokens ts).length := by
  refine stage_loop_induction heap
    (fun _ ts c k r => r.args = c.args ++ (arg_tokens ts).map strip_quotes ∧
      r.arg_count = k + (arg_tokens ts).length) ?_ ?_ ?_ ?_ ?_ ?_ ts d c k
  · intro d c k; simp [arg_tokens_nil]
  · intro d c k; simp [arg_tokens_pipe]
  · intro d n ts2 c k _; simp [arg_tokens_pipe]
  · intro d ts c k r h; rw [arg_tokens_amp]; exact h
  · intro d t ts c k r h1 _ h3 h
    rw [arg_tokens_redirect t ts h1 h3]
    simpa using h
  · intro d t ts c k r h1 h2 h3 h
    rw [arg_tokens_arg t ts h1 h2 h3]
    obtain ⟨ha, hk⟩ := h
    refine ⟨by simpa using ha, ?_⟩
    rw [hk]
    simp only [List.length_cons, Nat.cast_add, Nat.cast_one]
    ring

theorem stage_init_name (toks : List Str) (c : command_t) :
    (stage_init toks c).name = toks.headD [] := by
  unfold stage_init; simp

theorem stage_init_args (toks : List Str) (c : command_t) : (stage_init toks c).args = [] := by
  unfold stage_init; simp

theorem stage_init_next (toks : List Str) (c : command_t) :
    (stage_init toks c).next = c.next := by
  unfold stage_init; simp only [next_set_args, next_set_name]; split_ifs <;> simp

theorem stage_init_background (toks : List Str) (c : command_t) :
    (stage_init toks c).background = (decide (last_char toks = some '&') || c.background) := by
  unfold stage_init
  simp only [background_set_args, background_set_name]
  split_ifs <;> simp_all

theorem stage_init_auto_complete (toks : List Str) (c : command_t) :
    (stage_init toks c).auto_complete
      = (decide (last_char toks = some '?') || c.auto_complete) := by
  unfold stage_init
  simp only [auto_complete_set_args, auto_complete_set_name]
  split_ifs <;> simp_all

theorem later_names_cons_of_ne (t : Str) (ts : List Str) (h : t ≠ ['|']) :
    later_names (t :: ts) = later_names ts := by
  cases ts with
  | nil => rfl
  | cons n ts2 =>
    conv_lhs => unfold later_names
    rw [if_neg h]

theorem later_names_pipe (n : Str) (ts2 : List Str) :
    later_names (['|'] :: n :: ts2) = n :: later_names ts2 := by
  conv_lhs => unfold later_names
  simp

theorem stage_loop_chain_names (heap : Nat → command_t) (hheap : ∀ d, (heap d).next = none)
    (ts : List Str) (d : Nat) (c : command_t) (k : Int) (hc : c.next = none) :
    (stage_loop heap d ts c k).chain.map command_t.name = c.name :: later_names ts := by
  refine stage_loop_induction heap
    (fun _ ts c _ r => c.next = none → r.chain.map command_t.name = c.name :: later_names ts)
    ?_ ?_ ?_ ?_ ?_ ?_ ts d c k hc
  · intro d c k h
    rw [chain_of_next_none (by simpa using h)]
    simp [later_names]
  · intro d c k h
    rw [chain_of_next_none (by simpa using h)]
    simp [later_names]
  · intro d n ts2 c k ih _
    rw [chain_of_next_some (n := stage_loop heap (d + 1) ts2 (stage_init (n :: ts2) (heap d)) 0)
      (by simp)]
    rw [List.map_cons, ih (by rw [stage_init_next]; exact hheap d), later_names_pipe,
      stage_init_name]
    simp
  · intro d ts c k r ih h
    rw [later_names_cons_of_ne _ _ (by decide)]
    exact ih h
  · intro d t ts c k r h1 _ _ ih h
    rw [later_names_cons_of_ne _ _ h1]
    simpa using ih (by simpa using h)
  · intro d t ts c k r h1 _ _ ih h
    rw [later_names_cons_of_ne _ _ h1]
    simpa using ih (by simpa using h)

theorem later_names_append (as : List Str) (ts : List Str) (h : ∀ a ∈ as, a ≠ ['|']) :
    later_names (as ++ ts) = later_names ts := by
  induction as with
  | nil => rfl
  | cons a as ih =>
    rw [List.cons_append, later_names_cons_of_ne _ _ (h a (List.mem_cons_self _ _))]
    exact ih (fun x hx => h x (List.mem_cons_of_mem _ hx))

theorem loop_ok_append (as : List Str) (ts : List Str)
    (h : ∀ a ∈ as, a ≠ ['|'] ∧ a.length < TEMP_BUF_SIZE) (hts : loop_ok ts) :
    loop_ok (as ++ ts) := by
  induction as with
  | nil => exact hts
  | cons a as ih =>
    rw [List.cons_append, loop_ok_cons, if_neg (h a (List.mem_cons_self _ _)).1]
    exact ⟨(h a (List.mem_cons_self _ _)).2, ih (fun x hx => h x (List.mem_cons_of_mem _ hx))⟩

theorem pipeline_tokens_cons (s : Str × List Str) (rest : List (Str × List Str)) :
    pipeline_tokens (s :: rest) = s.1 :: (s.2 ++
      (match rest with
       | [] => []
       | s2 :: rest2 => ['|'] :: pipeline_tokens (s2 :: rest2))) := by
  cases rest with
  | nil => simp [pipeline_tokens]
  | cons s2 rest2 => simp [pipeline_tokens]

theorem pipeline_tail (rest : List (Str × List Str)) : ∀ s : Str × List Str,
    (∀ x ∈ s :: rest, ∀ a ∈ x.2, a ≠ ['|'] ∧ a.length < TEMP_BUF_SIZE) →
    loop_ok (pipeline_tokens (s :: rest)).tail ∧
      later_names (pipeline_tokens (s :: rest)).tail = rest.map Prod.fst := by
  induction rest with
  | nil =>
    intro s h
    rw [pipeline_tokens_cons]
    simp only [List.tail_cons, List.append_nil, List.map_nil]
    have hs := h s (List.mem_cons_self _ _)
    constructor
    · have := loop_ok_append s.2 [] hs (by unfold loop_ok; trivial)
      simpa using this
    · have := later_names_append s.2 [] (fun a ha => (hs a ha).1)
      simpa [later_names] using this
  | cons s2 rest2 ih =>
    intro s h
    have hs := h s (List.mem_cons_self _ _)
    obtain ⟨i1, i2⟩ := ih s2 (fun x hx => h x (List.mem_cons_of_mem _ hx))
    rw [pipeline_tokens_cons] at i1 i2 ⊢
    simp only [List.tail_cons] at i1 i2 ⊢
    constructor
    · apply loop_ok_append s.2 _ hs
      rw [pipeline_tokens_cons, loop_ok_cons, if_pos rfl]
      exact ⟨by decide, i1⟩
    · rw [later_names_append s.2 _ (fun a ha => (hs a ha).1), pipeline_tokens_cons,
        later_names_pipe, i2]
      rfl

theorem stage_loop_chain_args (heap : Nat → command_t) (hheap : ∀ d, (heap d).next = none)
    (ts : List Str) (d : Nat) (c : command_t) (k : Int) (hc : c.next = none) :
    ∀ stage ∈ (stage_loop heap d ts c k).chain, ∀ a ∈ stage.args,
      a ∈ c.args ∨ ∃ t ∈ ts, t ≠ ['&'] ∧ a = strip_quotes t := by
  refine stage_loop_induction heap
    (fun _ ts c _ r => c.next = none → ∀ stage ∈ r.chain, ∀ a ∈ stage.args,
      a ∈ c.args ∨ ∃ t ∈ ts, t ≠ ['&'] ∧ a = strip_quotes t)
    ?_ ?_ ?_ ?_ ?_ ?_ ts d c k hc
  · intro d c k h stage hs a ha
    rw [chain_of_next_none (by simpa using h)] at hs
    simp only [List.mem_singleton] at hs
    subst hs
    left; simpa using ha
  · intro d c k h stage hs a ha
    rw [chain_of_next_none (by simpa using h)] at hs
    simp only [List.mem_singleton] at hs
    subst hs
    left; simpa using ha
  · intro d n ts2 c k ih _ stage hs a ha
    rw [chain_of_next_some (n := stage_loop heap (d + 1) ts2 (stage_init (n :: ts2) (heap d)) 0)
      (by simp)] at hs
    rcases List.mem_cons.1 hs with rfl | hs
    · left; simpa using ha
    · rcases ih (by rw [stage_init_next]; exact hheap d) stage hs a ha with h | ⟨t, ht, h1, h2⟩
      · rw [stage_init_args] at h; simp at h
      · exact Or.inr ⟨t, by simp [ht], h1, h2⟩
  · intro d ts c k r ih h stage hs a ha
    rcases ih h stage hs a ha with h | ⟨t, ht, h1, h2⟩
    · exact Or.inl h
    · exact Or.inr ⟨t, List.mem_cons_of_mem _ ht, h1, h2⟩
  · intro d t ts c k r _ _ _ ih h stage hs a ha
    rcases ih (by simpa using h) stage hs a ha with h | ⟨u, hu, h1, h2⟩
    · left; simpa using h
    · exact Or.inr ⟨u, List.mem_cons_of_mem _ hu, h1, h2⟩
  · intro d t ts c k r _ h2 _ ih h stage hs a ha
    rcases ih (by simpa using h) stage hs a ha with h | ⟨u, hu, h1, h3⟩
    · simp only [args_set_args, List.mem_append, List.mem_singleton] at h
      rcases h with h | h
      · exact Or.inl h
      · exact Or.inr ⟨t, List.mem_cons_self _ _, h2, h⟩
    · exact Or.inr ⟨u, List.mem_cons_of_mem _ hu, h1, h3⟩

theorem words_word_space (w : Str) (hne : w ≠ []) (hw : ∀ c ∈ w, is_splitter c = false)
    (rest : Str) : words (w ++ ' ' :: rest) = w :: words rest := by
  cases w with
  | nil => exact absurd rfl hne
  | cons c cs =>
    have hc := hw c (List.mem_cons_self _ _)
    have hall : ∀ a ∈ c :: cs, (fun x => !is_splitter x) a = true := by
      intro a ha; simp [hw a ha]
    rw [List.cons_append, words_cons_neg hc, ← List.cons_append,
      List.takeWhile_append_of_pos hall, List.dropWhile_append_of_pos hall]
    have h1 : List.takeWhile (fun x => !is_splitter x) (' ' :: rest) = [] := by
      rw [List.takeWhile_cons_of_neg (by decide)]
    have h2 : List.dropWhile (fun x => !is_splitter x) (' ' :: rest) = ' ' :: rest := by
      rw [List.dropWhile_cons_of_neg (by decide)]
    rw [h1, h2]
    simp

theorem words_word (w : Str) (hne : w ≠ []) (hw : ∀ c ∈ w, is_splitter c = false) :
    words w = [w] := by
  cases w with
  | nil => exact absurd rfl hne
  | cons c cs =>
    have hc := hw c (List.mem_cons_self _ _)
    have hall : ∀ a ∈ c :: cs, (fun x => !is_splitter x) a = true := by
      intro a ha; simp [hw a ha]
    rw [words_cons_neg hc, List.takeWhile_eq_self_iff.2 hall,
      List.dropWhile_eq_nil_iff.2 hall]

theorem last_char_ne_nil {ts : List Str} {c : Char} (h : last_char ts = some c) : ts ≠ [] := by
  intro h0
  rw [h0] at h
  simp [last_char] at h

theorem parse_command_blank (heap : Nat → command_t) (line : Str) (command : command_t)
    (h : ∀ c ∈ line, is_splitter c = true) :
    parse_command heap line command = .error .null_deref := by
  have hw : words ((line.dropWhile is_splitter).rdropWhile is_splitter) = [] := by
    rw [List.dropWhile_eq_nil_iff.2 h]
    rfl
  unfold parse_command
  have h2 : 2 * line.length + 2 = (2 * line.length + 1) + 1 := rfl
  rw [h2, parse_command_aux, strtok_of_words_nil hw]

/-! ## The fuel of the model is enough for every line -/

theorem parse_fuel (heap : Nat → command_t) (fuel : Nat) :
    (∀ st depth slack command k, 2 * (words st).length + 1 ≤ fuel →
      settled (parse_loop heap fuel depth slack st command k)) ∧
    (∀ buf depth slack command, 2 * (words buf).length + 1 ≤ fuel →
      settled (parse_command_aux heap fuel depth slack buf command)) := by
  induction fuel with
  | zero =>
    constructor
    · intro st depth slack command k hf; omega
    · intro buf depth slack command hf; omega
  | succ f ih =>
    obtain ⟨ihl, ihc⟩ := ih
    have herr : ∀ e : Fault, e ≠ .out_of_fuel →
        settled (.error e : Except Fault (command_t × Str)) := by
      intro e he
      exact ⟨fun h => he (by injection h), fun c st2 h => by cases h⟩
    constructor
    · intro st depth slack command k hf
      rw [parse_loop]
      cases hs : strtok st with
      | none =>
        refine ⟨by simp, ?_⟩
        intro c st2 h
        simp only [Except.ok.injEq, Prod.mk.injEq] at h
        exact h.2.symm
      | some t =>
        have hw := (strtok_some hs).1
        rw [hw] at hf
        simp only [List.length_cons] at hf
        have hrec : ∀ c k2, settled (parse_loop heap f depth slack t.rest c k2) :=
          fun c k2 => ihl t.rest depth slack c k2 (by omega)
        have hnil : ∀ c k2, settled (parse_loop heap f depth slack [] c k2) :=
          fun c k2 => ihl [] depth slack c k2 (by rw [words_nil]; simp only [List.length_nil]; omega)
        have hpipe : ∀ (sl : Nat) (sub : Str), (words sub).length ≤ (words t.rest).length →
            settled (match parse_command_aux heap f (depth + 1) sl sub (heap depth) with
              | .error e => .error e
              | .ok (c, st2) => parse_loop heap f depth slack st2 (command.set_next c) k) := by
          intro sl sub hsub
          have hn := ihc sub (depth + 1) sl (heap depth) (by omega)
          cases hr : parse_command_aux heap f (depth + 1) sl sub (heap depth) with
          | error e =>
            rw [hr] at hn
            exact herr e (fun he => hn.1 (by rw [he]))
          | ok p =>
            obtain ⟨c, st2⟩ := p
            rw [hr] at hn
            have := hn.2 c st2 rfl
            subst this
            exact hnil _ _
        simp only
        split_ifs
        · exact herr _ (by decide)
        · exact hrec _ _
        · exact hrec _ _
        · exact hpipe slack _ (by rw [words_dropWhile])
        · exact herr _ (by decide)
        · exact hpipe (slack - 1) [] (by rw [words_nil]; simp)
        · exact hrec _ _
        · exact hrec _ _
        · exact hrec _ _
    · intro buf depth slack command hf
      rw [parse_command_aux]
      cases hs : strtok ((buf.dropWhile is_splitter).rdropWhile is_splitter) with
      | none => exact ⟨by simp, fun c st2 h => by cases h⟩
      | some t =>
        have hw := (strtok_some hs).1
        rw [words_rdropWhile, words_dropWhile] at hw
        rw [hw] at hf
        simp only [List.length_cons] at hf
        exact ihl t.rest depth _ _ 0 (by omega)

/-- The fuel handed out by `parse_command` is never used up: the result is a command or one
of the faults of the C code. -/
theorem parse_command_fuel (heap : Nat → command_t) (buf : Str) (command : command_t) :
    parse_command heap buf command ≠ .error .out_of_fuel := by
  have hlen := words_length_le buf
  have h := (parse_fuel heap (2 * buf.length + 2)).2 buf 0 0 command (by omega)
  unfold parse_command
  cases hr : parse_command_aux heap (2 * buf.length + 2) 0 0 buf command with
  | error e =>
    rw [hr] at h
    simp only
    intro he
    exact h.1 (by injection he with he; rw [he])
  | ok p =>
    obtain ⟨c, st2⟩ := p
    simp

/-! ## The parser: stages, redirects, quotes, markers -/

/-- When every struct arrives with `next` NULL (the head is cleared by the `memset` of
`main`; for the stages behind it this is an assumption on what `malloc` returns), a line
whose tokens are n+1 command words, each followed by its arguments (tokens other than `|`
that fit the 1024-byte scratch buffer) and joined by n `|` tokens, parses into a chain of
n+1 stages whose names are the command words in textual order. -/
theorem pipeline_stages_of_cleared_structs (heap : Nat → command_t)
    (hheap : ∀ d, (heap d).next = none) (command : command_t) (hcmd : command.next = none)
    (line : Str) (stages : List (Str × List Str)) (hne : stages ≠ [])
    (hline : words line = pipeline_tokens stages)
    (hargs : ∀ s ∈ stages, ∀ a ∈ s.2, a ≠ ['|'] ∧ a.length < TEMP_BUF_SIZE) :
    ∃ c, parse_command heap line command = .ok c ∧
      c.chain.length = stages.length ∧
      c.chain.map command_t.name = stages.map Prod.fst := by
  cases stages with
  | nil => exact absurd rfl hne
  | cons s rest =>
    obtain ⟨h1, h2⟩ := pipeline_tail rest s hargs
    have hw : words line = s.1 :: (pipeline_tokens (s :: rest)).tail := by
      rw [hline, pipeline_tokens_cons]; rfl
    have hnames : (stage_loop heap 0 (words line).tail
        (stage_init (words line) command) 0).chain.map command_t.name
          = (s :: rest).map Prod.fst := by
      rw [stage_loop_chain_names heap hheap _ _ _ _ (by rw [stage_init_next]; exact hcmd),
        stage_init_name, hw]
      simp only [List.tail_cons, List.headD_cons, h2, List.map_cons]
    refine ⟨_, parse_command_eq heap line command (by rw [hw]; simp)
      (by rw [hw]; exact h1), ?_, hnames⟩
    have := congrArg List.length hnames
    simpa using this

/-- C1, the code at the line `ls | wc` when the block that `malloc` returns for the second
stage still holds a `next` pointer from an earlier use: lines 154-163 hand the struct to
`parse_command` without clearing it (unlike the `memset` of `main` for the head) and the
parser writes `next` only at a `|`, so the chain does not end at `wc`: it has three stages
where the line has two. -/
theorem parse_command_stale_next :
    ∃ c, parse_command
        (fun _ => .mk "old".toList false false 0 [] none none none
          (some (.mk "gone".toList false false 0 [] none none none none)))
        "ls | wc".toList zeroed = .ok c ∧
      c.chain.length = 3 ∧
      c.chain.map command_t.name = ["ls".toList, "wc".toList, "gone".toList] :=
  ⟨_, rfl, rfl, rfl⟩

/-- C3, counterexample: `echo "a b"` is split at the blank inside the quotes and yields the
two arguments `"a` and `b"`. -/
theorem quoted_blank_counterexample :
    ∃ c, parse_command (fun _ => zeroed) "echo \"a b\"".toList zeroed = .ok c ∧
      c.args = ["\"a".toList, "b\"".toList] ∧ c.arg_count = 2 :=
  ⟨_, rfl, rfl, rfl⟩

/-- C3, amended: for a line `cmd "s"`, when the quoted text `s` is not empty and holds no
blank or tab the stage has exactly one positional argument, `s` without the quotes; when `s`
holds a blank or tab the line is split there, no positional argument holds whitespace and
`s` is not stored as an argument. -/
theorem parse_command_quoted_argument (heap : Nat → command_t) (command : command_t)
    (cmd s : Str) (hcmd : cmd ≠ []) (hcmd2 : ∀ c ∈ cmd, is_splitter c = false)
    (hfit : s.length + 2 < TEMP_BUF_SIZE) :
    (s ≠ [] → (∀ c ∈ s, is_splitter c = false) →
      ∃ c, parse_command heap (cmd ++ ' ' :: '"' :: (s ++ ['"'])) command = .ok c ∧
        c.args = [s] ∧ c.arg_count = 1) ∧
    ((∃ c ∈ s, is_splitter c = true) →
      ∃ c, parse_command heap (cmd ++ ' ' :: '"' :: (s ++ ['"'])) command = .ok c ∧
        (∀ a ∈ c.args, ∀ x ∈ a, is_splitter x = false) ∧ s ∉ c.args) := by
  constructor
  · intro hne hs
    have htok : ∀ c ∈ '"' :: (s ++ ['"']), is_splitter c = false := by
      intro c hc
      simp only [List.mem_cons, List.mem_append, List.mem_singleton, List.not_mem_nil,
        or_false] at hc
      rcases hc with rfl | h | rfl
      · decide
      · exact hs c h
      · decide
    have hw : words (cmd ++ ' ' :: '"' :: (s ++ ['"'])) = [cmd, '"' :: (s ++ ['"'])] := by
      rw [words_word_space cmd hcmd hcmd2, words_word _ (by simp) htok]
    have h4 : '"' :: (s ++ ['"']) ≠ ['|'] := by intro h; simp at h
    have h5 : '"' :: (s ++ ['"']) ≠ ['&'] := by intro h; simp at h
    have h6 : redirect_index ('"' :: (s ++ ['"'])) = -1 := by simp [redirect_index]
    have hq : strip_quotes ('"' :: (s ++ ['"'])) = s := by
      have hlen : 0 < s.length := List.length_pos.2 hne
      have : quote_wrapped ('"' :: (s ++ ['"'])) = true := by
        simp only [quote_wrapped, List.head?_cons, List.length_cons, List.length_append,
          List.length_singleton]
        rw [show ('"' :: (s ++ ['"'])) = ('"' :: s) ++ ['"'] from rfl, List.getLast?_concat]
        simp
        omega
      simp [strip_quotes, this]
    have hp : parse_command heap (cmd ++ ' ' :: '"' :: (s ++ ['"'])) command = .ok
        (((stage_init [cmd, '"' :: (s ++ ['"'])] command).set_args
          ((stage_init [cmd, '"' :: (s ++ ['"'])] command).args ++
            [strip_quotes ('"' :: (s ++ ['"']))])).set_arg_count (0 + 1)) := by
      rw [parse_command_eq heap _ command (by rw [hw]; simp)
        (by rw [hw, List.tail_cons, loop_ok_cons, if_neg h4]
            exact ⟨by simp only [List.length_cons, List.length_append, List.length_nil]
                      omega, by unfold loop_ok; trivial⟩),
        hw, List.tail_cons, stage_loop_arg _ _ _ _ _ _ h4 h5 h6, stage_loop_nil]
    refine ⟨_, hp, ?_, ?_⟩
    · simp [stage_init_args, hq]
    · simp
  · intro hs
    have hline : cmd ++ ' ' :: '"' :: (s ++ ['"']) = (cmd ++ ' ' :: '"' :: s) ++ ['"'] := by
      simp
    have hlast : last_char (words (cmd ++ ' ' :: '"' :: (s ++ ['"']))) = some '"' := by
      rw [hline]
      exact last_char_words_concat _ _ (by decide)
    have hw : words (cmd ++ ' ' :: '"' :: (s ++ ['"'])) = cmd :: words ('"' :: (s ++ ['"'])) :=
      words_word_space cmd hcmd hcmd2 _
    have hfits : ∀ t ∈ (words (cmd ++ ' ' :: '"' :: (s ++ ['"']))).tail,
        t.length < TEMP_BUF_SIZE := by
      intro t ht
      rw [hw, List.tail_cons] at ht
      have := word_length_le ht
      simp only [List.length_cons, List.length_append, List.length_nil] at this
      omega
    have hok := loop_ok_tail_of_fit _ hfits (by rw [hlast]; decide)
    have hargs := (stage_loop_args heap (words (cmd ++ ' ' :: '"' :: (s ++ ['"']))).tail 0
      (stage_init (words (cmd ++ ' ' :: '"' :: (s ++ ['"']))) command) 0).1
    rw [stage_init_args, List.nil_append] at hargs
    have hfree : ∀ a ∈ (stage_loop heap 0 (words (cmd ++ ' ' :: '"' :: (s ++ ['"']))).tail
        (stage_init (words (cmd ++ ' ' :: '"' :: (s ++ ['"']))) command) 0).args,
        ∀ x ∈ a, is_splitter x = false := by
      intro a ha x hx
      rw [hargs, List.mem_map] at ha
      obtain ⟨t, ht, rfl⟩ := ha
      have ht2 : t ∈ words (cmd ++ ' ' :: '"' :: (s ++ ['"'])) := by
        have h1 : t ∈ (words (cmd ++ ' ' :: '"' :: (s ++ ['"']))).tail := by
          unfold arg_tokens at ht
          exact (List.takeWhile_sublist _).subset (List.mem_of_mem_filter ht)
        exact List.mem_of_mem_tail h1
      apply word_no_splitter ht2
      unfold strip_quotes at hx
      split_ifs at hx
      · exact List.mem_of_mem_tail (List.mem_of_mem_dropLast hx)
      · exact hx
    refine ⟨_, parse_command_eq heap _ command (by rw [hw]; simp) hok, hfree, ?_⟩
    intro hmem
    obtain ⟨x, hx, hsp⟩ := hs
    have := hfree s hmem x hx
    rw [hsp] at this
    exact absurd this (by decide)

/-- Witness for the amended C3: `echo "ab"` gives the one argument `ab`, and `echo "a b"`
does not give `a b`. -/
theorem parse_command_quoted_argument_witness :
    (∃ c, parse_command (fun _ => zeroed) "echo \"ab\"".toList zeroed = .ok c ∧
        c.args = ["ab".toList] ∧ c.arg_count = 1) ∧
    (∃ c, parse_command (fun _ => zeroed) "echo \"a b\"".toList zeroed = .ok c ∧
        (∀ a ∈ c.args, ∀ x ∈ a, is_splitter x = false) ∧ "a b".toList ∉ c.args) :=
  ⟨(parse_command_quoted_argument (fun _ => zeroed) zeroed "echo".toList "ab".toList
      (by decide) (by decide) (by decide)).1 (by decide) (by decide),
   (parse_command_quoted_argument (fun _ => zeroed) zeroed "echo".toList "a b".toList
      (by decide) (by decide) (by decide)).2 ⟨' ', by decide, by decide⟩⟩

/-- C4: for every line whose last non-whitespace character is `&` (tokens behind the first
fitting the 1024-byte scratch buffer), whatever the number of `|` tokens in it,
`parse_command` returns with the background flag of the head command set. -/
theorem parse_command_background_flag (heap : Nat → command_t) (command : command_t)
    (line : Str) (hlast : (line.rdropWhile is_splitter).getLast? = some '&')
    (hfit : ∀ t ∈ (words line).tail, t.length < TEMP_BUF_SIZE) :
    ∃ c, parse_command heap line command = .ok c ∧ c.background = true := by
  rw [getLast_rdropWhile] at hlast
  refine ⟨_, parse_command_eq heap line command (last_char_ne_nil hlast)
    (loop_ok_tail_of_fit _ hfit (by rw [hlast]; decide)), ?_⟩
  rw [stage_loop_background, stage_init_background, hlast]
  simp

/-- Witness for C4: the line `cmd1 | cmd2 &`. -/
theorem parse_command_background_flag_witness :
    ∃ c, parse_command (fun _ => zeroed) "cmd1 | cmd2 &".toList zeroed = .ok c ∧
      c.background = true :=
  parse_command_background_flag (fun _ => zeroed) zeroed "cmd1 | cmd2 &".toList
    (by decide) (by decide)

/-- C5, counterexample: the marker stays in the text that is tokenized. The line `ls?` (what
the prompt hands over after a tab) has the name `ls?`, in `ls -l ?` the `?` is a positional
argument, and in `echo hi&` the argument is `hi&`. -/
theorem marker_kept_counterexample :
    (∃ c, parse_command (fun _ => zeroed) "ls?".toList zeroed = .ok c ∧
      c.name = "ls?".toList ∧ c.auto_complete = true) ∧
    (∃ c, parse_command (fun _ => zeroed) "ls -l ?".toList zeroed = .ok c ∧
      c.args = ["-l".toList, "?".toList]) ∧
    (∃ c, parse_command (fun _ => zeroed) "echo hi&".toList zeroed = .ok c ∧
      c.args = ["hi&".toList] ∧ c.background = true) :=
  ⟨⟨_, rfl, rfl, rfl⟩, ⟨_, rfl, rfl⟩, ⟨_, rfl, rfl, rfl⟩⟩

/-- C5, amended: for every line whose last non-whitespace character is `&` or `?`,
`parse_command` sets the matching flag of the head command (`background` for `&`,
`auto_complete` for `?`) but the character is not taken out of the line: the name of the
head stage is the whole first token, so on a line of one token the name ends with the
marker; the positional arguments of the head stage are, in their order and after quote
stripping, the tokens behind the name and before the first standalone `|` that are neither
a standalone `&` nor a redirect (`arg_tokens`), so a standalone `?` there and a word that
ends with the marker are stored as arguments; and every positional argument of every stage
is the quote-stripped form of a token of the line other than the standalone `&`. -/
theorem parse_command_marker_stays (heap : Nat → command_t)
    (hheap : ∀ d, (heap d).next = none) (command : command_t) (hcmd : command.next = none)
    (line : Str)
    (hlast : (line.rdropWhile is_splitter).getLast? = some '&' ∨
      (line.rdropWhile is_splitter).getLast? = some '?')
    (hfit : ∀ t ∈ (words line).tail, t.length < TEMP_BUF_SIZE) :
    ∃ c, parse_command heap line command = .ok c ∧
      ((line.rdropWhile is_splitter).getLast? = some '&' → c.background = true) ∧
      ((line.rdropWhile is_splitter).getLast? = some '?' → c.auto_complete = true) ∧
      c.name = (words line).headD [] ∧
      ((words line).tail = [] →
        c.name.getLast? = (line.rdropWhile is_splitter).getLast?) ∧
      c.args = (arg_tokens (words line).tail).map strip_quotes ∧
      ∀ stage ∈ c.chain, ∀ a ∈ stage.args,
        ∃ t ∈ words line, t ≠ ['&'] ∧ a = strip_quotes t := by
  rw [getLast_rdropWhile] at hlast ⊢
  have hne : words line ≠ [] := by
    rcases hlast with h | h <;> exact last_char_ne_nil h
  have hnp : last_char (words line) ≠ some '|' := by
    rcases hlast with h | h <;> rw [h] <;> decide
  refine ⟨_, parse_command_eq heap line command hne (loop_ok_tail_of_fit _ hfit hnp),
    ?_, ?_, ?_, ?_, ?_, ?_⟩
  · intro h
    rw [stage_loop_background, stage_init_background, h]
    simp
  · intro h
    rw [stage_loop_auto_complete, stage_init_auto_complete, h]
    simp
  · rw [stage_loop_name, stage_init_name]
  · intro ht
    rw [stage_loop_name, stage_init_name]
    cases hw : words line with
    | nil => exact absurd hw hne
    | cons w ws =>
      rw [hw] at ht
      simp only [List.tail_cons] at ht
      subst ht
      simp [last_char]
  · have hargs :=
      (stage_loop_args heap (words line).tail 0 (stage_init (words line) command) 0).1
    rw [stage_init_args, List.nil_append] at hargs
    exact hargs
  · intro stage hs a ha
    rcases stage_loop_chain_args heap hheap _ 0 _ 0 (by rw [stage_init_next]; exact hcmd)
      stage hs a ha with h | ⟨t, ht, h1, h2⟩
    · rw [stage_init_args] at h; simp at h
    · exact ⟨t, List.mem_of_mem_tail ht, h1, h2⟩

/-- Witness for the amended C5: the line `ls -l | wc &`. -/
theorem parse_command_marker_stays_witness :
    ∃ c, parse_command (fun _ => zeroed) "ls -l | wc &".toList zeroed = .ok c ∧
      (("ls -l | wc &".toList.rdropWhile is_splitter).getLast? = some '&' →
        c.background = true) ∧
      (("ls -l | wc &".toList.rdropWhile is_splitter).getLast? = some '?' →
        c.auto_complete = true) ∧
      c.name = (words "ls -l | wc &".toList).headD [] ∧
      ((words "ls -l | wc &".toList).tail = [] →
        c.name.getLast? = ("ls -l | wc &".toList.rdropWhile is_splitter).getLast?) ∧
      c.args = (arg_tokens (words "ls -l | wc &".toList).tail).map strip_quotes ∧
      ∀ stage ∈ c.chain, ∀ a ∈ stage.args,
        ∃ t ∈ words "ls -l | wc &".toList, t ≠ ['&'] ∧ a = strip_quotes t :=
  parse_command_marker_stays (fun _ => zeroed) (fun _ => rfl) zeroed rfl
    "ls -l | wc &".toList (Or.inl (by decide)) (by decide)

/-- C6, the code at a blank line: `strtok` finds no token and returns NULL, and line 118
calls `strlen` on that NULL pointer before the test `pch == NULL` of line 119 is reached;
`parse_command` does not complete. -/
theorem parse_command_blank_line_faults :
    parse_command (fun _ => zeroed) [] zeroed = .error .null_deref ∧
    parse_command (fun _ => zeroed) " \t ".toList zeroed = .error .null_deref :=
  ⟨parse_command_blank _ _ _ (by decide), parse_command_blank _ _ _ (by decide)⟩

/-! ## Path search -/

theorem path_finder_loop_first (access : Str → Bool) (name : Str) (size : Nat)
    (pre : List Str) (dir : Str) (post : List Str) (path : Str)
    (hpre : ∀ d ∈ pre, access (d ++ '/' :: name) = false)
    (hdir : access (dir ++ '/' :: name) = true)
    (hfit : ∀ d ∈ pre ++ [dir], (d ++ '/' :: name).length < size) :
    path_finder_loop access name size (pre ++ dir :: post) path = dir ++ '/' :: name := by
  have hsn : ∀ d ∈ pre ++ [dir], ∀ p, snprintf_path size p d name = d ++ '/' :: name := by
    intro d hd p
    have := hfit d hd
    unfold snprintf_path
    rw [if_neg (by omega), List.take_of_length_le (by omega)]
  induction pre generalizing path with
  | nil =>
    simp only [List.nil_append, path_finder_loop]
    rw [hsn dir (by simp) path, if_pos hdir]
  | cons d ds ih =>
    simp only [List.cons_append, path_finder_loop]
    rw [hsn d (by simp) path, if_neg (by simp [hpre d (List.mem_cons_self _ _)])]
    exact ih _ (fun x hx => hpre x (List.mem_cons_of_mem _ hx))
      (fun x hx => hfit x (by simp at hx ⊢; tauto))
      (fun x hx p => hsn x (by simp at hx ⊢; tauto) p)

/-- C7, amended: when the directories listed before `dir` in `PATH` do not hold an
executable `name` and `dir` does, and every candidate tried up to and including `dir/name`
fits the buffer, `path_finder` leaves `dir/name` in the buffer, whatever the later
directories hold. -/
theorem path_finder_first_match (os : OS) (name path : Str) (size : Nat) (allPaths : Str)
    (hp : os.PATH = some allPaths) (pre : List Str) (dir : Str) (post : List Str)
    (hsplit : strsep_fields allPaths = pre ++ dir :: post)
    (hpre : ∀ d ∈ pre, os.access (d ++ '/' :: name) = false)
    (hdir : os.access (dir ++ '/' :: name) = true)
    (hfit : ∀ d ∈ pre ++ [dir], (d ++ '/' :: name).length < size) :
    path_finder os name path size = .ok (dir ++ '/' :: name) := by
  unfold path_finder
  rw [hp]
  simp only
  rw [hsplit, path_finder_loop_first os.access name size pre dir post path hpre hdir hfit]

/-- Witness for the amended C7: `PATH=/opt/bin:/usr/bin:/bin`, the file `ls` executable in
`/usr/bin` and in `/bin`. -/
theorem path_finder_first_match_witness :
    path_finder
      ⟨0, some "/opt/bin:/usr/bin:/bin".toList,
        fun p => decide (p = "/usr/bin/ls".toList ∨ p = "/bin/ls".toList), fun _ => true, 0, []⟩
      "ls".toList [] PATH_MAX = .ok "/usr/bin/ls".toList :=
  path_finder_first_match _ "ls".toList [] PATH_MAX "/opt/bin:/usr/bin:/bin".toList rfl
    ["/opt/bin".toList] "/usr/bin".toList ["/bin".toList] (by decide) (by decide) (by decide)
    (by decide)

/-- C7, counterexample: with a buffer of 19 bytes and `PATH=/tmp/sw/p/opt/bin:/bin`, the
first directory with an executable `ls` is `/bin` and `/bin/ls` fits the buffer, but the
candidate of the earlier directory is cut by `snprintf` to `/tmp/sw/p/opt/bin/`, which
`access` accepts: `path_finder` stops there. -/
theorem path_finder_truncated_candidate_counterexample :
    path_finder
      ⟨0, some "/tmp/sw/p/opt/bin:/bin".toList,
        fun p => decide (p = "/tmp/sw/p/opt/bin/".toList ∨ p = "/bin/ls".toList),
        fun _ => true, 0, []⟩
      "ls".toList [] 19 = .ok "/tmp/sw/p/opt/bin/".toList ∧
    strsep_fields "/tmp/sw/p/opt/bin:/bin".toList
      = ["/tmp/sw/p/opt/bin".toList, "/bin".toList] ∧
    "/tmp/sw/p/opt/bin/ls".toList ≠ "/tmp/sw/p/opt/bin/".toList ∧
    "/tmp/sw/p/opt/bin/ls".toList ≠ "/bin/ls".toList ∧
    "/bin/ls".toList.length < 19 :=
  ⟨rfl, rfl, by decide, by decide, by decide⟩

/-! ## The executor -/

theorem strsep_fields_ne_nil (allPaths : Str) : strsep_fields allPaths ≠ [] :=
  List.splitOnP_ne_nil _ _

theorem path_finder_loop_none (access : Str → Bool) (name : Str) (size : Nat)
    (items : List Str) (hne : items ≠ []) (path : Str)
    (hnone : ∀ d ∈ items, access (d ++ '/' :: name) = false)
    (hfit : ∀ d ∈ items, (d ++ '/' :: name).length < size) :
    ∃ dir, items.getLast? = some dir ∧
      path_finder_loop access name size items path = dir ++ '/' :: name := by
  have hsn : ∀ d ∈ items, ∀ p, snprintf_path size p d name = d ++ '/' :: name := by
    intro d hd p
    have := hfit d hd
    unfold snprintf_path
    rw [if_neg (by omega), List.take_of_length_le (by omega)]
  induction items generalizing path with
  | nil => exact absurd rfl hne
  | cons d ds ih =>
    have h1 := hsn d (List.mem_cons_self _ _) path
    have h2 := hnone d (List.mem_cons_self _ _)
    cases ds with
    | nil =>
      refine ⟨d, rfl, ?_⟩
      simp only [path_finder_loop]
      rw [h1, if_neg (by simp [h2])]
    | cons e es =>
      obtain ⟨dir, hd1, hd2⟩ := ih (by simp) (d ++ '/' :: name)
        (fun x hx => hnone x (List.mem_cons_of_mem _ hx))
        (fun x hx => hfit x (List.mem_cons_of_mem _ hx))
        (fun x hx p => hsn x (List.mem_cons_of_mem _ hx) p)
      refine ⟨dir, by rw [List.getLast?_cons_cons]; exact hd1, ?_⟩
      rw [path_finder_loop, h1, if_neg (by simp [h2])]
      exact hd2

theorem process_command_external (os : OS) (builtin : command_t → Block) (command : command_t)
    (h : external command) : process_command os builtin command = fork_exec os command := by
  obtain ⟨h1, h2, h3, h4⟩ := h
  unfold process_command
  rw [if_neg h1, if_neg h2, if_neg h3, if_neg h4]

/-- A command with an empty name makes `process_command` return `SUCCESS` at once, without
any call. -/
theorem process_command_empty_name (os : OS) (builtin : command_t → Block)
    (command : command_t) (h : command.name = []) :
    process_command os builtin command = .ok ⟨[], some SUCCESS⟩ := by
  unfold process_command
  rw [if_pos h]

/-- C8, counterexample: for `nosuchcmd123`, which no directory of `PATH` holds, the shell
process calls `fork` and gets the pid of a child. -/
theorem unknown_command_forks_counterexample :
    ∃ c, parse_command (fun _ => zeroed) "nosuchcmd123".toList zeroed = .ok c ∧
      process_command ⟨1234, some "/usr/bin:/bin".toList, fun _ => false, fun _ => false, 0, []⟩
        (fun _ => .returned ⟨[], some SUCCESS⟩) c
        = .ok ⟨[.fork 1234, .wait none], some SUCCESS⟩ :=
  ⟨_, rfl, rfl⟩

/-- C8, amended: for an external command name that no directory of the search path holds
as an executable, `process_command` still forks: in the shell the first call is `fork`, so a
child is started whenever `fork` succeeds, and the name is resolved only in the child, where
`path_finder` leaves the candidate of the last `PATH` directory in the buffer and `execv` is
called on it. -/
theorem process_command_unresolved_still_forks (os : OS) (builtin : command_t → Block)
    (command : command_t) (hext : external command) (allPaths : Str)
    (hp : os.PATH = some allPaths)
    (hnone : ∀ d ∈ strsep_fields allPaths, os.access (d ++ '/' :: command.name) = false)
    (hfit : ∀ d ∈ strsep_fields allPaths, (d ++ '/' :: command.name).length < PATH_MAX) :
    (os.fork_ret ≠ 0 → ∃ o, process_command os builtin command = .ok o ∧
      o.calls.head? = some (.fork os.fork_ret) ∧ (0 < os.fork_ret → children_started o = 1)) ∧
    (os.fork_ret = 0 → ∃ o dir, process_command os builtin command = .ok o ∧
      (strsep_fields allPaths).getLast? = some dir ∧
      o.calls.take 2 = [.fork 0, .execv (dir ++ '/' :: command.name) (exec_argv command)] ∧
      o.result = none) := by
  rw [process_command_external os builtin command hext]
  constructor
  · intro hpid
    unfold fork_exec
    rw [if_neg hpid]
    by_cases hb : command.background = true
    · refine ⟨⟨[.fork os.fork_ret], some SUCCESS⟩, by simp only [hb]; rfl, rfl, ?_⟩
      intro hpos
      simp [children_started, hpos]
    · have hb2 : command.background = false := by simpa using hb
      refine ⟨⟨[.fork os.fork_ret, .wait (wait_stored os true)], some SUCCESS⟩,
        by simp only [hb2]; rfl, rfl, ?_⟩
      intro hpos
      simp [children_started, hpos]
  · intro hpid
    obtain ⟨dir, hd1, hd2⟩ := path_finder_loop_none os.access command.name PATH_MAX
      (strsep_fields allPaths) (strsep_fields_ne_nil _) os.command_path hnone hfit
    unfold fork_exec path_finder
    rw [if_pos hpid, hp]
    simp only [hd2]
    by_cases he : os.execv_ok (dir ++ '/' :: command.name) = true
    · rw [if_pos he]
      exact ⟨_, dir, rfl, hd1, rfl, rfl⟩
    · rw [if_neg he]
      exact ⟨_, dir, rfl, hd1, rfl, rfl⟩

/-- Witness for the amended C8: the command `nosuchcmd123` with `PATH=/usr/bin:/bin`, seen
from the shell (pid 1234 returned by `fork`). -/
theorem process_command_unresolved_still_forks_witness :
    ∃ o, process_command
        ⟨1234, some "/usr/bin:/bin".toList, fun _ => false, fun _ => false, 0, []⟩
        (fun _ => .returned ⟨[], some SUCCESS⟩)
        (.mk "nosuchcmd123".toList false false 0 [] none none none none) = .ok o ∧
      o.calls.head? = some (.fork 1234) ∧ ((0 : Int) < 1234 → children_started o = 1) :=
  (process_command_unresolved_still_forks
    ⟨1234, some "/usr/bin:/bin".toList, fun _ => false, fun _ => false, 0, []⟩
    (fun _ => .returned ⟨[], some SUCCESS⟩)
    (.mk "nosuchcmd123".toList false false 0 [] none none none none)
    (by decide) "/usr/bin:/bin".toList rfl (by decide) (by decide)).1 (by decide)

/-- C10, counterexample: two runs of the foreground command `false` that differ only in the
exit status of the child, 0 in one and 1 in the other, return the same value. -/
theorem exit_status_dropped_counterexample :
    ∃ c, parse_command (fun _ => zeroed) "false".toList zeroed = .ok c ∧
      c.background = false ∧
      process_command ⟨1234, some "/usr/bin:/bin".toList, fun _ => true, fun _ => true, 0, []⟩
        (fun _ => .returned ⟨[], some SUCCESS⟩) c
        = .ok ⟨[.fork 1234, .wait none], some SUCCESS⟩ ∧
      process_command ⟨1234, some "/usr/bin:/bin".toList, fun _ => true, fun _ => true, 1, []⟩
        (fun _ => .returned ⟨[], some SUCCESS⟩) c
        = .ok ⟨[.fork 1234, .wait none], some SUCCESS⟩ :=
  ⟨_, rfl, rfl, rfl, rfl⟩

/-- C10, amended: for every foreground external command the shell waits for a child with
`wait(0)`, which stores no status, and the value `process_command` returns does not depend
on the exit status of the child: two runs that differ only in that status are equal. -/
theorem process_command_ignores_exit_status (os : OS) (builtin : command_t → Block)
    (command : command_t) (hext : external command) (hfg : command.background = false)
    (hsh : os.fork_ret ≠ 0) (s1 s2 : Int) :
    ∃ o, process_command { os with child_status := s1 } builtin command = .ok o ∧
      process_command { os with child_status := s2 } builtin command = .ok o ∧
      Call.wait none ∈ o.calls := by
  rw [process_command_external _ builtin command hext,
    process_command_external _ builtin command hext]
  unfold fork_exec
  simp only [if_neg hsh, hfg]
  exact ⟨_, rfl, rfl, by simp [wait_stored]⟩

/-- Witness for the amended C10: the command `false` with child status 0 and 1. -/
theorem process_command_ignores_exit_status_witness :
    ∃ o, process_command
        { (⟨1234, some "/bin".toList, fun _ => true, fun _ => true, 0, []⟩ : OS) with
            child_status := 0 }
        (fun _ => .returned ⟨[], some SUCCESS⟩)
        (.mk "false".toList false false 0 [] none none none none) = .ok o ∧
      process_command
        { (⟨1234, some "/bin".toList, fun _ => true, fun _ => true, 0, []⟩ : OS) with
            child_status := 1 }
        (fun _ => .returned ⟨[], some SUCCESS⟩)
        (.mk "false".toList false false 0 [] none none none none) = .ok o ∧
      Call.wait none ∈ o.calls :=
  process_command_ignores_exit_status
    ⟨1234, some "/bin".toList, fun _ => true, fun _ => true, 0, []⟩
    (fun _ => .returned ⟨[], some SUCCESS⟩)
    (.mk "false".toList false false 0 [] none none none none)
    (by decide) rfl (by decide) 0 1

/-! ## The tic-tac-toe move -/

theorem ai_move_cases (arr : Board) :
    (ai_move arr = (true, arr) ∧ ¬ ∃ l ∈ board_lines, ∃ r, open_third arr l r) ∨
    ∃ l ∈ board_lines, ∃ r, open_third arr l r ∧ ai_move arr = (false, arr.set r.1 r.2 'O') := by
  by_cases h1 : arr 0 0 = 'X' ∧ arr 0 1 = 'X' ∧ arr 0 2 = ' '
  · refine Or.inr ⟨((0, 0), (0, 1), (0, 2)), by simp [board_lines], (0, 2), ⟨h1.2.2, Or.inr (Or.inr ⟨rfl, h1.1, h1.2.1⟩)⟩, ?_⟩
    unfold ai_move
    rw [if_pos h1]
  by_cases h2 : arr 0 1 = 'X' ∧ arr 0 2 = 'X' ∧ arr 0 0 = ' '
  · refine Or.inr ⟨((0, 0), (0, 1), (0, 2)), by simp [board_lines], (0, 0), ⟨h2.2.2, Or.inl ⟨rfl, h2.1, h2.2.1⟩⟩, ?_⟩
    unfold ai_move
    rw [if_neg h1, if_pos h2]
  by_cases h3 : arr 1 0 = 'X' ∧ arr 1 1 = 'X' ∧ arr 1 2 = ' '
  · refine Or.inr ⟨((1, 0), (1, 1), (1, 2)), by simp [board_lines], (1, 2), ⟨h3.2.2, Or.inr (Or.inr ⟨rfl, h3.1, h3.2.1⟩)⟩, ?_⟩
    unfold ai_move
    rw [if_neg h1, if_neg h2, if_pos h3]
  by_cases h4 : arr 1 1 = 'X' ∧ arr 1 2 = 'X' ∧ arr 1 0 = ' '
  · refine Or.inr ⟨((1, 0), (1, 1), (1, 2)), by simp [board_lines], (1, 0), ⟨h4.2.2, Or.inl ⟨rfl, h4.1, h4.2.1⟩⟩, ?_⟩
    unfold ai_move
    rw [if_neg h1, if_neg h2, if_neg h3, if_pos h4]
  by_cases h5 : arr 2 0 = 'X' ∧ arr 2 1 = 'X' ∧ arr 2 2 = ' '
  · refine Or.inr ⟨((2, 0), (2, 1), (2, 2)), by simp [board_lines], (2, 2), ⟨h5.2.2, Or.inr (Or.inr ⟨rfl, h5.1, h5.2.1⟩)⟩, ?_⟩
    unfold ai_move
    rw [if_neg h1, if_neg h2, if_neg h3, if_neg h4, if_pos h5]
  by_cases h6 : arr 2 1 = 'X' ∧ arr 2 2 = 'X' ∧ arr 2 0 = ' '
  · refine Or.inr ⟨((2, 0), (2, 1), (2, 2)), by simp [board_lines], (2, 0), ⟨h6.2.2, Or.inl ⟨rfl, h6.1, h6.2.1⟩⟩, ?_⟩
    unfold ai_move
    rw [if_neg h1, if_neg h2, if_neg h3, if_neg h4, if_neg h5, if_pos h6]
  by_cases h7 : arr 0 0 = 'X' ∧ arr 1 0 = 'X' ∧ arr 2 0 = ' '
  · refine Or.inr ⟨((0, 0), (1, 0), (2, 0)), by simp [board_lines], (2, 0), ⟨h7.2.2, Or.inr (Or.inr ⟨rfl, h7.1, h7.2.1⟩)⟩, ?_⟩
    unfold ai_move
    rw [if_neg h1, if_neg h2, if_neg h3, if_neg h4, if_neg h5, if_neg h6, if_pos h7]
  by_cases h8 : arr 1 0 = 'X' ∧ arr 2 0 = 'X' ∧ arr 0 0 = ' '
  · refine Or.inr ⟨((0, 0), (1, 0), (2, 0)), by simp [board_lines], (0, 0), ⟨h8.2.2, Or.inl ⟨rfl, h8.1, h8.2.1⟩⟩, ?_⟩
    unfold ai_move
    rw [if_neg h1, if_neg h2, if_neg h3, if_neg h4, if_neg h5, if_neg h6, if_neg h7, if_pos h8]
  by_cases h9 : arr 0 1 = 'X' ∧ arr 1 1 = 'X' ∧ arr 2 1 = ' '
  · refine Or.inr ⟨((0, 1), (1, 1), (2, 1)), by simp [board_lines], (2, 1), ⟨h9.2.2, Or.inr (Or.inr ⟨rfl, h9.1, h9.2.1⟩)⟩, ?_⟩
    unfold ai_move
    rw [if_neg h1, if_neg h2, if_neg h3, if_neg h4, if_neg h5, if_neg h6, if_neg h7, if_neg h8, if_pos h9]
  by_cases h10 : arr 1 1 = 'X' ∧ arr 2 1 = 'X' ∧ arr 0 1 = ' '
  · refine Or.inr ⟨((0, 1), (1, 1), (2, 1)), by simp [board_lines], (0, 1), ⟨h10.2.2, Or.inl ⟨rfl, h10.1, h10.2.1⟩⟩, ?_⟩
    unfold ai_move
    rw [if_neg h1, if_neg h2, if_neg h3, if_neg h4, if_neg h5, if_neg h6, if_neg h7, if_neg h8, if_neg h9, if_pos h10]
  by_cases h11 : arr 0 2 = 'X' ∧ arr 1 2 = 'X' ∧ arr 2 2 = ' '
  · refine Or.inr ⟨((0, 2), (1, 2), (2, 2)), by simp [board_lines], (2, 2), ⟨h11.2.2, Or.inr (Or.inr ⟨rfl, h11.1, h11.2.1⟩)⟩, ?_⟩
    unfold ai_move
    rw [if_neg h1, if_neg h2, if_neg h3, if_neg h4, if_neg h5, if_neg h6, if_neg h7, if_neg h8, if_neg h9, if_neg h10, if_pos h11]
  by_cases h12 : arr 1 2 = 'X' ∧ arr 2 2 = 'X' ∧ arr 0 2 = ' '
  · refine Or.inr ⟨((0, 2), (1, 2), (2, 2)), by simp [board_lines], (0, 2), ⟨h12.2.2, Or.inl ⟨rfl, h12.1, h12.2.1⟩⟩, ?_⟩
    unfold ai_move
    rw [if_neg h1, if_neg h2, if_neg h3, if_neg h4, if_neg h5, if_neg h6, if_neg h7, if_neg h8, if_neg h9, if_neg h10, if_neg h11, if_pos h12]
  by_cases h13 : arr 0 0 = 'X' ∧ arr 0 2 = 'X' ∧ arr 0 1 = ' '
  · refine Or.inr ⟨((0, 0), (0, 1), (0, 2)), by simp [board_lines], (0, 1), ⟨h13.2.2, Or.inr (Or.inl ⟨rfl, h13.1, h13.2.1⟩)⟩, ?_⟩
    unfold ai_move
    rw [if_neg h1, if_neg h2, if_neg h3, if_neg h4, if_neg h5, if_neg h6, if_neg h7, if_neg h8, if_neg h9, if_neg h10, if_neg h11, if_neg h12, if_pos h13]
  by_cases h14 : arr 1 0 = 'X' ∧ arr 1 2 = 'X' ∧ arr 1 1 = ' '
  · refine Or.inr ⟨((1, 0), (1, 1), (1, 2)), by simp [board_lines], (1, 1), ⟨h14.2.2, Or.inr (Or.inl ⟨rfl, h14.1, h14.2.1⟩)⟩, ?_⟩
    unfold ai_move
    rw [if_neg h1, if_neg h2, if_neg h3, if_neg h4, if_neg h5, if_neg h6, if_neg h7, if_neg h8, if_neg h9, if_neg h10, if_neg h11, if_neg h12, if_neg h13, if_pos h14]
  by_cases h15 : arr 2 0 = 'X' ∧ arr 2 2 = 'X' ∧ arr 2 1 = ' '
  · refine Or.inr ⟨((2, 0), (2, 1), (2, 2)), by simp [board_lines], (2, 1), ⟨h15.2.2, Or.inr (Or.inl ⟨rfl, h15.1, h15.2.1⟩)⟩, ?_⟩
    unfold ai_move
    rw [if_neg h1, if_neg h2, if_neg h3, if_neg h4, if_neg h5, if_neg h6, if_neg h7, if_neg h8, if_neg h9, if_neg h10, if_neg h11, if_neg h12, if_neg h13, if_neg h14, if_pos h15]
  by_cases h16 : arr 0 0 = 'X' ∧ arr 2 0 = 'X' ∧ arr 1 0 = ' '
  · refine Or.inr ⟨((0, 0), (1, 0), (2, 0)), by simp [board_lines], (1, 0), ⟨h16.2.2, Or.inr (Or.inl ⟨rfl, h16.1, h16.2.1⟩)⟩, ?_⟩
    unfold ai_move
    rw [if_neg h1, if_neg h2, if_neg h3, if_neg h4, if_neg h5, if_neg h6, if_neg h7, if_neg h8, if_neg h9, if_neg h10, if_neg h11, if_neg h12, if_neg h13, if_neg h14, if_neg h15, if_pos h16]
  by_cases h17 : arr 0 1 = 'X' ∧ arr 2 1 = 'X' ∧ arr 1 1 = ' '
  · refine Or.inr ⟨((0, 1), (1, 1), (2, 1)), by simp [board_lines], (1, 1), ⟨h17.2.2, Or.inr (Or.inl ⟨rfl, h17.1, h17.2.1⟩)⟩, ?_⟩
    unfold ai_move
    rw [if_neg h1, if_neg h2, if_neg h3, if_neg h4, if_neg h5, if_neg h6, if_neg h7, if_neg h8, if_neg h9, if_neg h10, if_neg h11, if_neg h12, if_neg h13, if_neg h14, if_neg h15, if_neg h16, if_pos h17]
  by_cases h18 : arr 0 2 = 'X' ∧ arr 2 2 = 'X' ∧ arr 1 2 = ' '
  · refine Or.inr ⟨((0, 2), (1, 2), (2, 2)), by simp [board_lines], (1, 2), ⟨h18.2.2, Or.inr (Or.inl ⟨rfl, h18.1, h18.2.1⟩)⟩, ?_⟩
    unfold ai_move
    rw [if_neg h1, if_neg h2, if_neg h3, if_neg h4, if_neg h5, if_neg h6, if_neg h7, if_neg h8, if_neg h9, if_neg h10, if_neg h11, if_neg h12, if_neg h13, if_neg h14, if_neg h15, if_neg h16, if_neg h17, if_pos h18]
  by_cases h19 : arr 0 0 = 'X' ∧ arr 1 1 = 'X' ∧ arr 2 2 = ' '
  · refine Or.inr ⟨((0, 0), (1, 1), (2, 2)), by simp [board_lines], (2, 2), ⟨h19.2.2, Or.inr (Or.inr ⟨rfl, h19.1, h19.2.1⟩)⟩, ?_⟩
    unfold ai_move
    rw [if_neg h1, if_neg h2, if_neg h3, if_neg h4, if_neg h5, if_neg h6, if_neg h7, if_neg h8, if_neg h9, if_neg h10, if_neg h11, if_neg h12, if_neg h13, if_neg h14, if_neg h15, if_neg h16, if_neg h17, if_neg h18, if_pos h19]
  by_cases h20 : arr 1 1 = 'X' ∧ arr 2 2 = 'X' ∧ arr 0 0 = ' '
  · refine Or.inr ⟨((0, 0), (1, 1), (2, 2)), by simp [board_lines], (0, 0), ⟨h20.2.2, Or.inl ⟨rfl, h20.1, h20.2.1⟩⟩, ?_⟩
    unfold ai_move
    rw [if_neg h1, if_neg h2, if_neg h3, if_neg h4, if_neg h5, if_neg h6, if_neg h7, if_neg h8, if_neg h9, if_neg h10, if_neg h11, if_neg h12, if_neg h13, if_neg h14, if_neg h15, if_neg h16, if_neg h17, if_neg h18, if_neg h19, if_pos h20]
  by_cases h21 : arr 0 0 = 'X' ∧ arr 2 2 = 'X' ∧ arr 1 1 = ' '
  · refine Or.inr ⟨((0, 0), (1, 1), (2, 2)), by simp [board_lines], (1, 1), ⟨h21.2.2, Or.inr (Or.inl ⟨rfl, h21.1, h21.2.1⟩)⟩, ?_⟩
    unfold ai_move
    rw [if_neg h1, if_neg h2, if_neg h3, if_neg h4, if_neg h5, if_neg h6, if_neg h7, if_neg h8, if_neg h9, if_neg h10, if_neg h11, if_neg h12, if_neg h13, if_neg h14, if_neg h15, if_neg h16, if_neg h17, if_neg h18, if_neg h19, if_neg h20, if_pos h21]
  by_cases h22 : arr 2 0 = 'X' ∧ arr 1 1 = 'X' ∧ arr 0 2 = ' '
  · refine Or.inr ⟨((2, 0), (1, 1), (0, 2)), by simp [board_lines], (0, 2), ⟨h22.2.2, Or.inr (Or.inr ⟨rfl, h22.1, h22.2.1⟩)⟩, ?_⟩
    unfold ai_move
    rw [if_neg h1, if_neg h2, if_neg h3, if_neg h4, if_neg h5, if_neg h6, if_neg h7, if_neg h8, if_neg h9, if_neg h10, if_neg h11, if_neg h12, if_neg h13, if_neg h14, if_neg h15, if_neg h16, if_neg h17, if_neg h18, if_neg h19, if_neg h20, if_neg h21, if_pos h22]
  by_cases h23 : arr 1 1 = 'X' ∧ arr 0 2 = 'X' ∧ arr 2 0 = ' '
  · refine Or.inr ⟨((2, 0), (1, 1), (0, 2)), by simp [board_lines], (2, 0), ⟨h23.2.2, Or.inl ⟨rfl, h23.1, h23.2.1⟩⟩, ?_⟩
    unfold ai_move
    rw [if_neg h1, if_neg h2, if_neg h3, if_neg h4, if_neg h5, if_neg h6, if_neg h7, if_neg h8, if_neg h9, if_neg h10, if_neg h11, if_neg h12, if_neg h13, if_neg h14, if_neg h15, if_neg h16, if_neg h17, if_neg h18, if_neg h19, if_neg h20, if_neg h21, if_neg h22, if_pos h23]
  by_cases h24 : arr 2 0 = 'X' ∧ arr 0 2 = 'X' ∧ arr 1 1 = ' '
  · refine Or.inr ⟨((2, 0), (1, 1), (0, 2)), by simp [board_lines], (1, 1), ⟨h24.2.2, Or.inr (Or.inl ⟨rfl, h24.1, h24.2.1⟩)⟩, ?_⟩
    unfold ai_move
    rw [if_neg h1, if_neg h2, if_neg h3, if_neg h4, if_neg h5, if_neg h6, if_neg h7, if_neg h8, if_neg h9, if_neg h10, if_neg h11, if_neg h12, if_neg h13, if_neg h14, if_neg h15, if_neg h16, if_neg h17, if_neg h18, if_neg h19, if_neg h20, if_neg h21, if_neg h22, if_neg h23, if_pos h24]
  refine Or.inl ⟨by unfold ai_move; rw [if_neg h1, if_neg h2, if_neg h3, if_neg h4, if_neg h5, if_neg h6, if_neg h7, if_neg h8, if_neg h9, if_neg h10, if_neg h11, if_neg h12, if_neg h13, if_neg h14, if_neg h15, if_neg h16, if_neg h17, if_neg h18, if_neg h19, if_neg h20, if_neg h21, if_neg h22, if_neg h23, if_neg h24], ?_⟩
  rintro ⟨l, hl, r, hb, hr⟩
  simp only [board_lines, List.mem_cons, List.mem_singleton, List.not_mem_nil, or_false] at hl
  rcases hl with rfl | rfl | rfl | rfl | rfl | rfl | rfl | rfl
  · rcases hr with ⟨rfl, hx, hy⟩ | ⟨rfl, hx, hy⟩ | ⟨rfl, hx, hy⟩
    · exact h2 ⟨hx, hy, hb⟩
    · exact h13 ⟨hx, hy, hb⟩
    · exact h1 ⟨hx, hy, hb⟩
  · rcases hr with ⟨rfl, hx, hy⟩ | ⟨rfl, hx, hy⟩ | ⟨rfl, hx, hy⟩
    · exact h4 ⟨hx, hy, hb⟩
    · exact h14 ⟨hx, hy, hb⟩
    · exact h3 ⟨hx, hy, hb⟩
  · rcases hr with ⟨rfl, hx, hy⟩ | ⟨rfl, hx, hy⟩ | ⟨rfl, hx, hy⟩
    · exact h6 ⟨hx, hy, hb⟩
    · exact h15 ⟨hx, hy, hb⟩
    · exact h5 ⟨hx, hy, hb⟩
  · rcases hr with ⟨rfl, hx, hy⟩ | ⟨rfl, hx, hy⟩ | ⟨rfl, hx, hy⟩
    · exact h8 ⟨hx, hy, hb⟩
    · exact h16 ⟨hx, hy, hb⟩
    · exact h7 ⟨hx, hy, hb⟩
  · rcases hr with ⟨rfl, hx, hy⟩ | ⟨rfl, hx, hy⟩ | ⟨rfl, hx, hy⟩
    · exact h10 ⟨hx, hy, hb⟩
    · exact h17 ⟨hx, hy, hb⟩
    · exact h9 ⟨hx, hy, hb⟩
  · rcases hr with ⟨rfl, hx, hy⟩ | ⟨rfl, hx, hy⟩ | ⟨rfl, hx, hy⟩
    · exact h12 ⟨hx, hy, hb⟩
    · exact h18 ⟨hx, hy, hb⟩
    · exact h11 ⟨hx, hy, hb⟩
  · rcases hr with ⟨rfl, hx, hy⟩ | ⟨rfl, hx, hy⟩ | ⟨rfl, hx, hy⟩
    · exact h20 ⟨hx, hy, hb⟩
    · exact h21 ⟨hx, hy, hb⟩
    · exact h19 ⟨hx, hy, hb⟩
  · rcases hr with ⟨rfl, hx, hy⟩ | ⟨rfl, hx, hy⟩ | ⟨rfl, hx, hy⟩
    · exact h23 ⟨hx, hy, hb⟩
    · exact h24 ⟨hx, hy, hb⟩
    · exact h22 ⟨hx, hy, hb⟩

theorem board_set_of_ne (arr : Board) (r : Fin 3 × Fin 3) (v : Char) (i j : Fin 3)
    (h : (i, j) ≠ r) : arr.set r.1 r.2 v i j = arr i j := by
  unfold Board.set
  rw [if_neg]
  rintro ⟨rfl, rfl⟩
  exact h rfl

/-- C18: when some row, column or diagonal has two cells equal to 'X' and its third cell
blank, `ai_move` returns false and the board differs in exactly one cell, the blank third
cell of such a line, which now holds 'O'; when there is no such line `ai_move` returns true
and the board is unchanged; a cell that is not blank is never overwritten. -/
theorem ai_move_blocks_open_line (arr : Board) :
    ((∃ l ∈ board_lines, ∃ r, open_third arr l r) →
      (ai_move arr).1 = false ∧
      ∃ l ∈ board_lines, ∃ r, open_third arr l r ∧
        (ai_move arr).2 r.1 r.2 = 'O' ∧
        ∀ i j, (i, j) ≠ r → (ai_move arr).2 i j = arr i j) ∧
    ((¬ ∃ l ∈ board_lines, ∃ r, open_third arr l r) →
      (ai_move arr).1 = true ∧ (ai_move arr).2 = arr) ∧
    (∀ i j, arr i j ≠ ' ' → (ai_move arr).2 i j = arr i j) := by
  rcases ai_move_cases arr with ⟨h1, h2⟩ | ⟨l, hl, r, hr, h⟩
  · refine ⟨fun h => absurd h h2, fun _ => ?_, fun i j _ => ?_⟩
    · rw [h1]; exact ⟨rfl, rfl⟩
    · rw [h1]
  · refine ⟨fun _ => ?_, fun hn => absurd ⟨l, hl, r, hr⟩ hn, fun i j hij => ?_⟩
    · rw [h]
      refine ⟨rfl, l, hl, r, hr, ?_, fun i j hne => board_set_of_ne arr r 'O' i j hne⟩
      simp [Board.set]
    · rw [h]
      apply board_set_of_ne
      rintro rfl
      exact hij hr.1

/-- Witness for C18: the board with 'X' in the first two cells of the top row and blanks
elsewhere; the third cell of the top row is taken. -/
theorem ai_move_blocks_open_line_witness :
    (ai_move (fun i j => if i = 0 ∧ j ≠ 2 then 'X' else ' ')).1 = false ∧
      ∃ l ∈ board_lines, ∃ r,
        open_third (fun i j => if i = 0 ∧ j ≠ 2 then 'X' else ' ') l r ∧
        (ai_move (fun i j => if i = 0 ∧ j ≠ 2 then 'X' else ' ')).2 r.1 r.2 = 'O' ∧
        ∀ i j, (i, j) ≠ r →
          (ai_move (fun i j => if i = 0 ∧ j ≠ 2 then 'X' else ' ')).2 i j
            = (fun i j => if i = 0 ∧ j ≠ 2 then 'X' else ' ') i j :=
  (ai_move_blocks_open_line (fun i j => if i = 0 ∧ j ≠ 2 then 'X' else ' ')).1
    ⟨((0, 0), (0, 1), (0, 2)), by decide, (0, 2), by decide⟩

/-! ## Waiting and the argument vector -/

/-- C11: for every external command, in the shell (the side where `fork` did not return 0)
`process_command` calls `wait` before it returns exactly when the background flag is false;
with the flag set it returns after the `fork` alone. -/
theorem process_command_waits_iff_foreground (os : OS) (builtin : command_t → Block)
    (command : command_t) (hext : external command) (hparent : os.fork_ret ≠ 0) :
    ∃ o, process_command os builtin command = .ok o ∧ o.result = some SUCCESS ∧
      ((∃ s, Call.wait s ∈ o.calls) ↔ command.background = false) ∧
      (command.background = true → o.calls = [.fork os.fork_ret]) := by
  rw [process_command_external os builtin command hext]
  unfold fork_exec
  rw [if_neg hparent]
  cases hb : command.background with
  | true =>
    refine ⟨⟨[.fork os.fork_ret], some SUCCESS⟩, rfl, rfl, ?_, fun _ => rfl⟩
    simp
  | false =>
    refine ⟨⟨[.fork os.fork_ret, .wait (wait_stored os true)], some SUCCESS⟩, rfl, rfl, ?_,
      fun h => by cases h⟩
    simp

/-- Witness for C11: the foreground command `sleep` in the shell. -/
theorem process_command_waits_iff_foreground_witness :
    ∃ o, process_command
        ⟨1234, some "/bin".toList, fun _ => true, fun _ => true, 0, []⟩
        (fun _ => .returned ⟨[], some SUCCESS⟩)
        (.mk "sleep".toList false false 1 ["5".toList] none none none none) = .ok o ∧
      o.result = some SUCCESS ∧
      ((∃ s, Call.wait s ∈ o.calls) ↔ false = false) ∧
      (false = true → o.calls = [.fork 1234]) :=
  process_command_waits_iff_foreground
    ⟨1234, some "/bin".toList, fun _ => true, fun _ => true, 0, []⟩
    (fun _ => .returned ⟨[], some SUCCESS⟩)
    (.mk "sleep".toList false false 1 ["5".toList] none none none none)
    (by decide) (by decide)

theorem shift_args_getElem (i : Nat) : ∀ (l : List (Option Str)) (j : Nat), i < l.length →
    (shift_args i l)[j]? = if 1 ≤ j ∧ j ≤ i then l[j - 1]? else l[j]? := by
  induction i with
  | zero =>
    intro l j _
    rw [shift_args, if_neg (by omega)]
  | succ i ih =>
    intro l j hl
    rw [shift_args, ih _ j (by rw [List.length_set]; omega)]
    simp only [List.getElem?_set, List.getD_eq_getElem?_getD]
    have hi : l[i]? = some l[i] := List.getElem?_eq_getElem (by omega)
    by_cases h1 : 1 ≤ j ∧ j ≤ i
    · rw [if_pos h1, if_neg (by omega), if_pos (by omega)]
    · rw [if_neg h1]
      by_cases h2 : i + 1 = j
      · rw [if_pos h2, if_pos hl, if_pos (by omega), ← h2, hi]
        simp
      · rw [if_neg h2, if_neg (by omega)]

theorem shift_args_length (i : Nat) : ∀ l : List (Option Str),
    (shift_args i l).length = l.length := by
  induction i with
  | zero => intro l; rfl
  | succ i ih => intro l; rw [shift_args, ih, List.length_set]

theorem exec_argv_eq (command : command_t) (h : command.arg_count = command.args.length) :
    exec_argv command = some command.name :: (command.args.map some ++ [none]) := by
  unfold exec_argv
  simp only [h]
  have e1 : ((command.args.length : Int) + 2 - 2).toNat = command.args.length := by omega
  have e2 : ((command.args.length : Int) + 2 - 1).toNat = command.args.length + 1 := by omega
  rw [e1, e2]
  apply List.ext_getElem?
  intro j
  have hlen : command.args.length <
      (command.args.map some ++ [none, none]).length := by simp
  have hl2 : (command.args.map some ++ [none, none]).length = command.args.length + 2 := by
    simp
  simp only [List.getElem?_set, List.length_set, shift_args_getElem _ _ _ hlen,
    shift_args_length, hl2]
  by_cases h0 : j = 0
  · subst h0
    simp
  · obtain ⟨m, rfl⟩ : ∃ m, j = m + 1 := ⟨j - 1, by omega⟩
    rw [List.getElem?_cons_succ]
    rcases Nat.lt_trichotomy m command.args.length with hm | hm | hm
    · rw [if_neg (by omega), if_neg (by omega), if_pos ⟨by omega, by omega⟩]
      simp only [Nat.add_sub_cancel]
      rw [List.getElem?_append_left (by simp; omega),
        List.getElem?_append_left (by simp; omega)]
    · subst hm
      rw [if_pos rfl, if_pos (by omega)]
      simp
    · rw [if_neg (by omega), if_neg (by omega), if_neg (by omega)]
      rw [List.getElem?_eq_none (by simp; omega), List.getElem?_eq_none (by simp; omega)]

/-- For an external command with name m and positional arguments a0..a(k-1) (`arg_count` =
k), the vector built in the child and passed to `execv` has k+2 elements: m first,
a0..a(k-1) in their order behind it, NULL last. -/
theorem exec_vector_of_external (os : OS) (builtin : command_t → Block)
    (command : command_t) (hext : external command)
    (hcount : command.arg_count = command.args.length) (hchild : os.fork_ret = 0)
    (allPaths : Str) (hp : os.PATH = some allPaths) :
    (∃ o path, process_command os builtin command = .ok o ∧
      o.calls.take 2 = [.fork 0, .execv path (exec_argv command)]) ∧
    exec_argv command = some command.name :: (command.args.map some ++ [none]) ∧
    (exec_argv command).length = command.args.length + 2 ∧
    exec_arg_count command = command.args.length + 2 := by
  have hv := exec_argv_eq command hcount
  refine ⟨?_, hv, by rw [hv]; simp, by unfold exec_arg_count; rw [hcount]⟩
  rw [process_command_external os builtin command hext]
  unfold fork_exec path_finder
  rw [if_pos hchild, hp]
  simp only
  split_ifs
  · exact ⟨_, _, rfl, rfl⟩
  · exact ⟨_, _, rfl, rfl⟩

theorem exec_argv_eq_exec_vector (command : command_t) :
    exec_argv command
      = exec_vector command.name command.arg_count (command.args.map some) := rfl

/-- C17, the code at the command `iambored x` when the option typed at its menu is 4: the
block of lines 849-862 has built the vector `iambored, x, NULL` and raised `arg_count` from
1 to 3; it has no `return`, so lines 1086-1096 run on that vector in the child and `execv`
receives `iambored, iambored, x, NULL, NULL`, five elements where k + 2 is three. -/
theorem iambored_vector_built_twice :
    ∃ c, parse_command (fun _ => zeroed) "iambored x".toList zeroed = .ok c ∧
      c.name = "iambored".toList ∧ c.args = ["x".toList] ∧ c.arg_count = 1 ∧
      iambored_quit ⟨0, some "/bin".toList, fun _ => false, fun _ => false, 0, []⟩ c
        = .ok ⟨[.fork 0,
            .execv "/bin/iambored".toList
              [some "iambored".toList, some "iambored".toList, some "x".toList, none, none],
            .exit 0], none⟩ :=
  ⟨_, rfl, rfl, rfl, rfl, rfl⟩

/-! ## Redirect slots and positional arguments, stage by stage -/

theorem redirects_set_redirect (c : command_t) (i : Int) (v : Str) (n : Nat) (hn : n < 3) :
    (c.set_redirect i v).redirects n = if i = (n : Int) then some v else c.redirects n := by
  cases c
  simp only [command_t.set_redirect, command_t.redirects]
  have h3 : n = 0 ∨ n = 1 ∨ n = 2 := by omega
  rcases h3 with rfl | rfl | rfl <;> split_ifs <;> simp_all

theorem redirect_index_cases (t : Str) :
    redirect_index t = -1 ∨ redirect_index t = 0 ∨ redirect_index t = 1 ∨
      redirect_index t = 2 := by
  unfold redirect_index
  split_ifs <;> simp

theorem redirect_index_eq_neg_one (t : Str) :
    redirect_index t = -1 ↔ t.head? ≠ some '<' ∧ t.head? ≠ some '>' := by
  unfold redirect_index
  split_ifs with h1 h2 h3 <;> simp_all

theorem redirect_tokens_nil (i : Int) : redirect_tokens i [] = [] := rfl

theorem redirect_tokens_pipe (i : Int) (ts : List Str) :
    redirect_tokens i (['|'] :: ts) = [] := by
  simp [redirect_tokens]

theorem redirect_tokens_cons (i : Int) (t : Str) (ts : List Str) (h : t ≠ ['|']) :
    redirect_tokens i (t :: ts) =
      if redirect_index t = i then t :: redirect_tokens i ts else redirect_tokens i ts := by
  unfold redirect_tokens
  rw [List.takeWhile_cons_of_pos (by simpa using h)]
  by_cases hi : redirect_index t = i
  · rw [if_pos hi, List.filter_cons_of_pos (by simpa using hi)]
  · rw [if_neg hi, List.filter_cons_of_neg (by simpa using hi)]

theorem stage_loop_redirects (heap : Nat → command_t) (n : Nat) (hn : n < 3) (ts : List Str)
    (d : Nat) (c : command_t) (k : Int) :
    (stage_loop heap d ts c k).redirects n =
      (((redirect_tokens n ts).getLast?).map redirect_target).or (c.redirects n) := by
  refine stage_loop_induction heap
    (fun _ ts c _ r => r.redirects n =
      (((redirect_tokens n ts).getLast?).map redirect_target).or (c.redirects n))
    ?_ ?_ ?_ ?_ ?_ ?_ ts d c k
  · intro d c k; simp [redirect_tokens_nil]
  · intro d c k; simp [redirect_tokens_pipe]
  · intro d m ts2 c k _; simp [redirect_tokens_pipe]
  · intro d ts c k r h
    rw [redirect_tokens_cons _ _ _ (by decide), if_neg (by
      have : redirect_index ['&'] = -1 := by decide
      rw [this]; omega)]
    exact h
  · intro d t ts c k r h1 _ h3 h
    rw [h, redirects_set_redirect _ _ _ _ hn, redirect_tokens_cons _ _ _ h1]
    by_cases hi : redirect_index t = (n : Int)
    · rw [if_pos hi, if_pos hi, List.getLast?_cons]
      cases (redirect_tokens (↑n) ts).getLast? <;> simp [redirect_target]
    · rw [if_neg hi, if_neg hi]
  · intro d t ts c k r h1 _ h3 h
    rw [h, redirect_tokens_cons _ _ _ h1, if_neg (by rw [h3]; omega)]
    simp

theorem later_tails_cons_of_ne (t : Str) (ts : List Str) (h : t ≠ ['|']) :
    later_tails (t :: ts) = later_tails ts := by
  cases ts with
  | nil => rfl
  | cons n ts2 =>
    conv_lhs => unfold later_tails
    rw [if_neg h]

theorem later_tails_pipe (n : Str) (ts2 : List Str) :
    later_tails (['|'] :: n :: ts2) = ts2 :: later_tails ts2 := by
  conv_lhs => unfold later_tails
  simp

/-- A field that the loop computes from its prior value and the tokens of the stage has, on
the stages behind the head, the value computed from the tokens of each of them. -/
theorem stage_loop_chain_tail {β : Type} (heap : Nat → command_t)
    (hheap : ∀ d, (heap d).next = none) (f : command_t → β) (G : β → List Str → β) (b0 : β)
    (hinit : ∀ d toks, f (stage_init toks (heap d)) = b0)
    (hhead : ∀ d ts c k, f (stage_loop heap d ts c k) = G (f c) ts)
    (ts : List Str) (d : Nat) (c : command_t) (k : Int) (hc : c.next = none) :
    (stage_loop heap d ts c k).chain.map f = G (f c) ts :: (later_tails ts).map (G b0) := by
  have key : (stage_loop heap d ts c k).chain.tail.map f = (later_tails ts).map (G b0) := by
    refine stage_loop_induction heap
      (fun _ ts c _ r => c.next = none → r.chain.tail.map f = (later_tails ts).map (G b0))
      ?_ ?_ ?_ ?_ ?_ ?_ ts d c k hc
    · intro d c k h
      rw [chain_of_next_none (by simpa using h)]
      simp [later_tails]
    · intro d c k h
      rw [chain_of_next_none (by simpa using h)]
      simp [later_tails]
    · intro d m ts2 c k ih _
      rw [chain_of_next_some
        (n := stage_loop heap (d + 1) ts2 (stage_init (m :: ts2) (heap d)) 0) (by simp)]
      have hx := ih (by rw [stage_init_next]; exact hheap d)
      rw [List.tail_cons, later_tails_pipe, List.map_cons, ← hx]
      rw [chain_eq (stage_loop heap (d + 1) ts2 (stage_init (m :: ts2) (heap d)) 0)]
      simp only [List.map_cons, List.tail_cons, hhead, hinit]
    · intro d ts c k r ih h
      rw [later_tails_cons_of_ne _ _ (by decide)]
      exact ih h
    · intro d t ts c k r h1 _ _ ih h
      rw [later_tails_cons_of_ne _ _ h1]
      exact ih (by simpa using h)
    · intro d t ts c k r h1 _ _ ih h
      rw [later_tails_cons_of_ne _ _ h1]
      exact ih (by simpa using h)
  rw [chain_eq] at key ⊢
  simp only [List.tail_cons] at key
  rw [List.map_cons, key, hhead]


theorem stage_init_redirects (toks : List Str) (c : command_t) (n : Nat) :
    (stage_init toks c).redirects n = c.redirects n := by
  unfold stage_init
  simp only [redirects_set_args, redirects_set_name]
  split_ifs <;> simp

theorem stage_init_arg_count (toks : List Str) (c : command_t) :
    (stage_init toks c).arg_count = c.arg_count := by
  unfold stage_init
  simp only [arg_count_set_args, arg_count_set_name]
  split_ifs <;> simp

theorem parse_command_ok (heap : Nat → command_t) (line : Str) (command : command_t)
    (hne : words line ≠ []) (hfit : ∀ t ∈ (words line).tail, t.length < TEMP_BUF_SIZE)
    (hpipe : (words line).tail.getLast? ≠ some ['|']) :
    parse_command heap line command
      = .ok (stage_loop heap 0 (words line).tail (stage_init (words line) command) 0) :=
  parse_command_eq heap line command hne (loop_ok_of_fit _ _ le_rfl hfit hpipe)

theorem later_tails_subset (n : Nat) : ∀ ts : List Str, ts.length ≤ n →
    ∀ seg ∈ later_tails ts, ∀ t ∈ seg, t ∈ ts := by
  induction n with
  | zero =>
    intro ts h seg hs
    have : ts = [] := List.length_eq_zero.1 (by omega)
    subst this
    simp [later_tails] at hs
  | succ n ih =>
    intro ts h seg hs t ht
    cases ts with
    | nil => simp [later_tails] at hs
    | cons a ts =>
      simp only [List.length_cons] at h
      by_cases hp : a = ['|']
      · subst hp
        cases ts with
        | nil => simp [later_tails] at hs
        | cons m ts2 =>
          simp only [List.length_cons] at h
          rw [later_tails_pipe] at hs
          rcases List.mem_cons.1 hs with rfl | hs
          · exact List.mem_cons_of_mem _ (List.mem_cons_of_mem _ ht)
          · exact List.mem_cons_of_mem _ (List.mem_cons_of_mem _
              (ih ts2 (by omega) seg hs t ht))
      · rw [later_tails_cons_of_ne _ _ hp] at hs
        exact List.mem_cons_of_mem _ (ih ts (by omega) seg hs t ht)

theorem stage_tails_subset (toks : List Str) :
    ∀ seg ∈ stage_tails toks, ∀ t ∈ seg, t ∈ toks.tail := by
  intro seg hs t ht
  unfold stage_tails at hs
  rcases List.mem_cons.1 hs with rfl | hs
  · exact ht
  · exact later_tails_subset _ _ le_rfl seg hs t ht

theorem parse_chain_args (heap : Nat → command_t) (hheap : ∀ d, (heap d).next = none)
    (command : command_t) (hcmd : command.next = none) (line : Str) :
    (stage_loop heap 0 (words line).tail (stage_init (words line) command) 0).chain.map
        command_t.args
      = (stage_tails (words line)).map (fun ts => (arg_tokens ts).map strip_quotes) := by
  have h := stage_loop_chain_tail heap hheap command_t.args
    (fun a ts => a ++ (arg_tokens ts).map strip_quotes) []
    (fun d toks => stage_init_args toks (heap d))
    (fun d ts c k => (stage_loop_args heap ts d c k).1)
    (words line).tail 0 (stage_init (words line) command) 0
    (by rw [stage_init_next]; exact hcmd)
  rw [h, stage_init_args]
  simp [stage_tails]

theorem parse_chain_redirects (heap : Nat → command_t) (hheap : ∀ d, (heap d).next = none)
    (command : command_t) (hcmd : command.next = none) (line : Str) (n : Nat) (hn : n < 3)
    (hslot : ∀ d, (heap d).redirects n = none) (hslot0 : command.redirects n = none) :
    (stage_loop heap 0 (words line).tail (stage_init (words line) command) 0).chain.map
        (fun s => s.redirects n)
      = (stage_tails (words line)).map
          (fun ts => ((redirect_tokens n ts).getLast?).map redirect_target) := by
  have h := stage_loop_chain_tail heap hheap (fun s => s.redirects n)
    (fun v ts => (((redirect_tokens n ts).getLast?).map redirect_target).or v) none
    (fun d toks => by simp only [stage_init_redirects]; exact hslot d)
    (fun d ts c k => stage_loop_redirects heap n hn ts d c k)
    (words line).tail 0 (stage_init (words line) command) 0
    (by rw [stage_init_next]; exact hcmd)
  rw [h]
  simp [stage_tails, stage_init_redirects, hslot0]

theorem strip_quotes_eq (t : Str) :
    strip_quotes t =
      if 2 < t.length ∧ ((t.head? = some '"' ∧ t.getLast? = some '"') ∨
          (t.head? = some '\'' ∧ t.getLast? = some '\'')) then t.tail.dropLast
      else t := by
  unfold strip_quotes quote_wrapped
  by_cases h : 2 < t.length ∧ ((t.head? = some '"' ∧ t.getLast? = some '"') ∨
      (t.head? = some '\'' ∧ t.getLast? = some '\''))
  · rw [if_pos h, if_pos]
    simpa using h
  · rw [if_neg h, if_neg]
    simpa using h

/-- C14, counterexample: `>` and `>>` both redirect the output, yet in `cmd >a >>b` the
target of the earlier token survives, in `redirects[1]`, beside the later one in
`redirects[2]`. -/
theorem mixed_output_redirects_counterexample :
    ∃ c, parse_command (fun _ => zeroed) "cmd >a >>b".toList zeroed = .ok c ∧
      c.redirects 1 = some "a".toList ∧ c.redirects 2 = some "b".toList :=
  ⟨_, rfl, rfl, rfl⟩

/-- C14, amended: in every stage, for each of the three slots (`<` for `redirects[0]`, `>`
for `redirects[1]`, `>>` for `redirects[2]`), the slot holds the target of the last token of
that stage that selects it, and nothing when the stage has no such token: earlier targets of
the same operator are overwritten. The structs are taken as `main` and a clearing allocator
hand them over. -/
theorem parse_command_last_redirect_wins (heap : Nat → command_t)
    (hheap : ∀ d, (heap d).next = none) (command : command_t) (hcmd : command.next = none)
    (line : Str) (hne : words line ≠ [])
    (hfit : ∀ t ∈ (words line).tail, t.length < TEMP_BUF_SIZE)
    (hpipe : (words line).tail.getLast? ≠ some ['|'])
    (n : Nat) (hn : n < 3) (hslot : ∀ d, (heap d).redirects n = none)
    (hslot0 : command.redirects n = none) :
    ∃ c, parse_command heap line command = .ok c ∧
      c.chain.map (fun s => s.redirects n) =
        (stage_tails (words line)).map
          (fun ts => ((redirect_tokens n ts).getLast?).map redirect_target) :=
  ⟨_, parse_command_ok heap line command hne hfit hpipe,
    parse_chain_redirects heap hheap command hcmd line n hn hslot hslot0⟩

/-- Witness for the amended C14: in `cmd <x >a >b | wc >c <y <z` the output slot of the two
stages holds `b` and `c`. -/
theorem parse_command_last_redirect_wins_witness :
    ∃ c, parse_command (fun _ => zeroed) "cmd <x >a >b | wc >c <y <z".toList zeroed = .ok c ∧
      c.chain.map (fun s => s.redirects 1) =
        (stage_tails (words "cmd <x >a >b | wc >c <y <z".toList)).map
          (fun ts => ((redirect_tokens (1 : Nat) ts).getLast?).map redirect_target) :=
  parse_command_last_redirect_wins (fun _ => zeroed) (fun _ => rfl) zeroed rfl
    "cmd <x >a >b | wc >c <y <z".toList (by decide) (by decide) (by decide) 1 (by decide)
    (fun _ => rfl) rfl

/-- C15: for every line that `parse_command` gets through (a first token, later tokens that
fit the scratch buffer, no `|` at the very end), no token that begins with `<` or `>` and no
standalone `|` is stored as a positional argument of any stage, and the positional arguments
of the head stage are, in their order and after quote stripping, exactly the tokens behind
the name and before the first standalone `|` that are neither a standalone `&` nor begin
with `<` or `>`; `arg_count` is their number. -/
theorem parse_command_positional_arguments (heap : Nat → command_t)
    (hheap : ∀ d, (heap d).next = none) (command : command_t) (hcmd : command.next = none)
    (line : Str) (hne : words line ≠ [])
    (hfit : ∀ t ∈ (words line).tail, t.length < TEMP_BUF_SIZE)
    (hpipe : (words line).tail.getLast? ≠ some ['|']) :
    ∃ c, parse_command heap line command = .ok c ∧
      (∀ stage ∈ c.chain, ∀ a ∈ stage.args, ∃ t ∈ (words line).tail,
        t ≠ ['|'] ∧ t.head? ≠ some '<' ∧ t.head? ≠ some '>' ∧ a = strip_quotes t) ∧
      c.args = ((((words line).tail.takeWhile (fun t => decide (t ≠ ['|']))).filter
        (fun t => decide (t ≠ ['&'] ∧ t.head? ≠ some '<' ∧ t.head? ≠ some '>'))).map
          strip_quotes) ∧
      c.arg_count = ((((words line).tail.takeWhile (fun t => decide (t ≠ ['|']))).filter
        (fun t => decide (t ≠ ['&'] ∧ t.head? ≠ some '<' ∧ t.head? ≠ some '>'))).length) := by
  have hfilter : ∀ ts : List Str, arg_tokens ts =
      ((ts.takeWhile (fun t => decide (t ≠ ['|']))).filter
        (fun t => decide (t ≠ ['&'] ∧ t.head? ≠ some '<' ∧ t.head? ≠ some '>'))) := by
    intro ts
    unfold arg_tokens
    apply List.filter_congr
    intro t _
    by_cases h1 : t = ['&']
    · simp [h1]
    · by_cases h2 : redirect_index t = -1
      · have := (redirect_index_eq_neg_one t).1 h2
        simp [h1, h2, this]
      · have : ¬ (t.head? ≠ some '<' ∧ t.head? ≠ some '>') :=
          fun h => h2 ((redirect_index_eq_neg_one t).2 h)
        have hd : decide (t ≠ ['&'] ∧ t.head? ≠ some '<' ∧ t.head? ≠ some '>') = false :=
          decide_eq_false (fun h => this h.2)
        rw [hd]
        simp [h2]
  have hargs := stage_loop_args heap (words line).tail 0 (stage_init (words line) command) 0
  rw [stage_init_args, List.nil_append, hfilter] at hargs
  refine ⟨_, parse_command_ok heap line command hne hfit hpipe, ?_, hargs.1, ?_⟩
  · intro stage hs a ha
    have hmem : stage.args ∈ (stage_loop heap 0 (words line).tail
        (stage_init (words line) command) 0).chain.map command_t.args :=
      List.mem_map_of_mem _ hs
    rw [parse_chain_args heap hheap command hcmd line, List.mem_map] at hmem
    obtain ⟨seg, hseg, hsa⟩ := hmem
    rw [← hsa, List.mem_map] at ha
    obtain ⟨t, ht, rfl⟩ := ha
    have ht2 : t ∈ seg := by
      unfold arg_tokens at ht
      exact (List.takeWhile_sublist _).subset (List.mem_of_mem_filter ht)
    have hp : t ≠ ['|'] := by
      unfold arg_tokens at ht
      have := List.mem_takeWhile_imp (List.mem_of_mem_filter ht)
      simpa using this
    have hr : redirect_index t = -1 := by
      unfold arg_tokens at ht
      have := (List.mem_filter.1 ht).2
      simp only [Bool.and_eq_true, decide_eq_true_eq] at this
      exact this.2
    have hh := (redirect_index_eq_neg_one t).1 hr
    exact ⟨t, stage_tails_subset _ seg hseg t ht2, hp, hh.1, hh.2, rfl⟩
  · rw [hargs.2]
    simp

/-- Witness for C15: the line `ls -l "my" >out <in & | wc -c`. -/
theorem parse_command_positional_arguments_witness :
    ∃ c, parse_command (fun _ => zeroed) "ls -l \"my\" >out <in & | wc -c".toList zeroed
        = .ok c ∧
      (∀ stage ∈ c.chain, ∀ a ∈ stage.args,
        ∃ t ∈ (words "ls -l \"my\" >out <in & | wc -c".toList).tail,
          t ≠ ['|'] ∧ t.head? ≠ some '<' ∧ t.head? ≠ some '>' ∧ a = strip_quotes t) ∧
      c.args = ["-l".toList, "my".toList] ∧
      c.arg_count = (2 : Nat) :=
  parse_command_positional_arguments (fun _ => zeroed) (fun _ => rfl) zeroed rfl
    "ls -l \"my\" >out <in & | wc -c".toList (by decide) (by decide) (by decide)

/-- C16, counterexample: the two-character tokens `""` and `''` are stored as they are,
quotes included. -/
theorem two_quotes_kept_counterexample :
    (∃ c, parse_command (fun _ => zeroed) "echo \"\"".toList zeroed = .ok c ∧
      c.args = ["\"\"".toList]) ∧
    (∃ c, parse_command (fun _ => zeroed) "echo ''".toList zeroed = .ok c ∧
      c.args = ["''".toList]) :=
  ⟨⟨_, rfl, rfl⟩, ⟨_, rfl, rfl⟩⟩

/-- C16, amended: in every stage the positional arguments are the argument tokens of the
stage in their order, each stored without its first and last character when it is more than
two characters long and begins and ends with the same quote character (`"` or `'`), and
stored unchanged otherwise; the two-character tokens `""` and `''` are stored unchanged. -/
theorem parse_command_quote_stripping (heap : Nat → command_t)
    (hheap : ∀ d, (heap d).next = none) (command : command_t) (hcmd : command.next = none)
    (line : Str) (hne : words line ≠ [])
    (hfit : ∀ t ∈ (words line).tail, t.length < TEMP_BUF_SIZE)
    (hpipe : (words line).tail.getLast? ≠ some ['|']) :
    ∃ c, parse_command heap line command = .ok c ∧
      c.chain.map command_t.args = (stage_tails (words line)).map (fun ts =>
        (arg_tokens ts).map (fun t =>
          if 2 < t.length ∧ ((t.head? = some '"' ∧ t.getLast? = some '"') ∨
              (t.head? = some '\'' ∧ t.getLast? = some '\'')) then t.tail.dropLast
          else t)) := by
  refine ⟨_, parse_command_ok heap line command hne hfit hpipe, ?_⟩
  rw [parse_chain_args heap hheap command hcmd line]
  apply List.map_congr_left
  intro ts _
  apply List.map_congr_left
  intro t _
  exact strip_quotes_eq t

/-- Witness for the amended C16: the line `echo "ab" 'c' "" x | cat "y z"`. -/
theorem parse_command_quote_stripping_witness :
    ∃ c, parse_command (fun _ => zeroed) "echo \"ab\" 'c' \"\" x | cat \"y z\"".toList zeroed
        = .ok c ∧
      c.chain.map command_t.args =
        [["ab".toList, "c".toList, "\"\"".toList, "x".toList],
         ["\"y".toList, "z\"".toList]] :=
  parse_command_quote_stripping (fun _ => zeroed) (fun _ => rfl) zeroed rfl
    "echo \"ab\" 'c' \"\" x | cat \"y z\"".toList (by decide) (by decide) (by decide)

/-! ## Status of a failing builtin -/

/-- C12, the code at two failing commands: `highlight word r notes.txt` with a file that
cannot be opened, and `kdiff -a old.c new.c` with two files that exist but are not named
`.txt`, make `process_command` return `EXIT`, the value on which the loop of `main` ends. -/
theorem process_command_exit_on_failure :
    (∃ c, parse_command (fun _ => zeroed) "highlight word r notes.txt".toList zeroed = .ok c ∧
      process_command ⟨1234, some "/bin".toList, fun _ => true, fun _ => true, 0, []⟩
        (embedded_builtin (fun _ => false) (fun _ => .returned ⟨[], some SUCCESS⟩)) c
        = .ok ⟨[], some EXIT⟩) ∧
    (∃ c, parse_command (fun _ => zeroed) "kdiff -a old.c new.c".toList zeroed = .ok c ∧
      process_command ⟨1234, some "/bin".toList, fun _ => true, fun _ => true, 0, []⟩
        (embedded_builtin (fun _ => true) (fun _ => .returned ⟨[], some SUCCESS⟩)) c
        = .ok ⟨[], some EXIT⟩) :=
  ⟨⟨_, rfl, rfl⟩, ⟨_, rfl, rfl⟩⟩

/-! ## Redirect tokens with and without a blank before the target -/

end Seashell
